import Mathlib

/-!
# Verification of the `ghn` notification-dashboard core

Shallow embedding of the core of the `ghn` repository (a terminal GitHub
notification dashboard written in Rust) together with proofs about the
claims of its specification.

Conventions of the embedding:
* Rust `usize` values that stay small (indices, counts) are `Nat`; the one
  place where `usize` overflow is checked in the source
  (`longest_valid_prefix`, via `checked_mul`/`checked_add`) is modelled
  explicitly with the bound `USIZE = 2 ^ 64`.
* `updated_at` strings are parsed by the source with
  `chrono::DateTime::parse_from_rfc3339(..).timestamp()` into an `i64`
  before every comparison; RFC3339 parsing is an external concern (spec §1
  puts wire-format field mapping out of scope), so notifications carry the
  parsed `Int` timestamp directly and `chrono::Utc::now()` becomes an
  explicit `now : Int` argument.
* Rust `HashMap`s are modelled as association lists with unique keys; the
  source's `entry().or_default().push(..)` / `entry().and_modify(..)
  .or_insert(..)` idioms become the corresponding assoc-list operations.
  Claims never depend on `HashMap` iteration order.
* `HashSet<String>` (the ignore set) is modelled as a `List String` with
  insert-if-absent; only membership is ever observed.
-/

namespace Ghn

/-! ## Data model (src/types.rs) -/

/-- `Action` from src/types.rs.  (src/ui.rs additionally mentions
`PrettyYank` and `ReviewNoAnalyze` variants that do not exist in this
snapshot's `types.rs` enum and are unreachable from `Action::from_char`;
they are omitted.) -/
inductive Action where
  | Open
  | Yank
  | Read
  | Done
  | Unsubscribe
  | Review
  | Branch
deriving DecidableEq, Repr

/-- `Action::from_char` from src/types.rs. -/
def Action.fromChar (ch : Char) : Option Action :=
  if ch = 'o' then some .Open
  else if ch = 'y' then some .Yank
  else if ch = 'r' then some .Read
  else if ch = 'd' then some .Done
  else if ch = 'q' then some .Unsubscribe
  else if ch = 'p' then some .Review
  else if ch = 'b' then some .Branch
  else none

/-- `Action::as_char` from src/types.rs. -/
def Action.asChar : Action → Char
  | .Open => 'o'
  | .Yank => 'y'
  | .Read => 'r'
  | .Done => 'd'
  | .Unsubscribe => 'q'
  | .Review => 'p'
  | .Branch => 'b'

/-- `SubjectStatus` from src/types.rs. -/
inductive SubjectStatus where
  | Draft
  | Merged
  | Closed
deriving DecidableEq, Repr

/-- `CiStatus` from src/types.rs. -/
inductive CiStatus where
  | Success
  | Pending
  | Failure
deriving DecidableEq, Repr

/-- `ReviewStatus` from src/types.rs. -/
inductive ReviewStatus where
  | Approved
  | ChangesRequested
  | ReviewRequired
deriving DecidableEq, Repr

/-- `Subject` from src/types.rs (the `head_ref` field, used only by the
branch-checkout helper, is irrelevant to every claim and kept for
completeness). -/
structure Subject where
  title : String
  url : String
  kind : String
  status : List SubjectStatus
  ciStatus : Option CiStatus
  reviewStatus : Option ReviewStatus
  headRef : Option String
deriving DecidableEq, Repr

/-- `Repository` from src/types.rs (merge settings are irrelevant to the
claims and omitted; they are only consulted by the merge helper). -/
structure Repository where
  name : String
  fullName : String
deriving DecidableEq, Repr

/-- `Notification` from src/types.rs.  `updatedAt` holds the already
parsed RFC3339 timestamp (`parse_updated_at` in src/main.rs). -/
structure Notification where
  id : String
  nodeId : String
  subjectId : Option String
  unread : Bool
  reason : String
  updatedAt : Int
  subject : Subject
  repository : Repository
  url : String
deriving DecidableEq, Repr

/-- `MyPullRequest` from src/types.rs. -/
structure MyPullRequest where
  id : String
  updatedAt : Int
  subject : Subject
  repository : Repository
  url : String
deriving DecidableEq, Repr

/-! ## Association-list helpers

These model the `HashMap` operations used by the source.  A key occurs at
most once in every map the source builds, so the first-match behaviour of
`List.lookup` agrees with `HashMap` lookup. -/

/-- `map.entry(k).or_default().push(v)`: append `v` to the list stored at
`k`, inserting `(k, [v])` if `k` is absent. -/
def alPush {κ ν : Type} [DecidableEq κ] : List (κ × List ν) → κ → ν → List (κ × List ν)
  | [], k, v => [(k, [v])]
  | (k', vs) :: rest, k, v =>
      if k' = k then (k', vs ++ [v]) :: rest else (k', vs) :: alPush rest k v

/-- `map.insert(k, v)`: replace the value at `k`, appending if absent. -/
def alInsert {κ ν : Type} [DecidableEq κ] : List (κ × ν) → κ → ν → List (κ × ν)
  | [], k, v => [(k, v)]
  | (k', v') :: rest, k, v =>
      if k' = k then (k', v) :: rest else (k', v') :: alInsert rest k v

/-! ## Command parser (src/commands.rs) -/

/-- `is_target_char` from src/commands.rs. -/
def is_target_char (ch : Char) : Bool :=
  ch = 'm' ∨ ch = 'c' ∨ ch = 'f' ∨ ch = '?' ∨ ch = 'a' ∨ ch = 'x' ∨ ch = 'u'

/-- `ch.to_digit(10).unwrap_or(0)` from `longest_valid_prefix`. -/
def charDigit (ch : Char) : Nat :=
  if ch.isDigit then ch.toNat - 48 else 0

/-- `usize` overflow bound used by the `checked_mul`/`checked_add` calls in
`longest_valid_prefix` (the target is 64-bit). -/
def USIZE : Nat := 2 ^ 64

/-- Loop body of `longest_valid_prefix` from src/commands.rs: scans the
remaining characters, carrying the accumulated `value`, the position `pos`
(number of characters already consumed from the whole string), and the
`best` valid `(value, length)` pair found so far.  `checked_mul(10)` plus
`checked_add(digit)` fails exactly when `10 * value + digit` reaches
`2 ^ 64`, in which case the loop breaks with the current best. -/
def lvpAux (N : Nat) : List Char → Nat → Nat → Option (Nat × Nat) → Option (Nat × Nat)
  | [], _, _, best => best
  | ch :: rest, value, pos, best =>
      let next := 10 * value + charDigit ch
      if USIZE ≤ next then best
      else
        let best' := if 1 ≤ next ∧ next ≤ N then some (next, pos + 1) else best
        if N < next ∧ next ≠ 0 then best'
        else lvpAux N rest next (pos + 1) best'

/-- `longest_valid_prefix` from src/commands.rs. -/
def longest_valid_prefix (digits : List Char) (N : Nat) : Option (Nat × Nat) :=
  lvpAux N digits 0 0 none

/-- One step of the `while` loop of `split_digits`, with explicit fuel.
Each iteration of the source loop consumes at least one character
(`lvp_some_one_le` below), so `digits.length` bounds the iteration count
and `splitGo N digits.length digits` computes the loop exactly;
`split_digits_eq` below recovers the source recurrence. -/
def splitGo (N : Nat) : Nat → List Char → List Nat
  | 0, _ => []
  | fuel + 1, digits =>
      match longest_valid_prefix digits N with
      | some (value, len) => value :: splitGo N fuel (digits.drop len)
      | none => []

/-- `split_digits` from src/commands.rs. -/
def split_digits (digits : List Char) (N : Nat) : List Nat :=
  splitGo N digits.length digits

/-- `push_index` from src/commands.rs. -/
def push_index (indices : List Nat) (index : Nat) (N : Nat) : List Nat :=
  if 1 ≤ index ∧ index ≤ N then indices ++ [index] else indices

/-- `push_range` from src/commands.rs: normalize the endpoint order, then
push every index of the inclusive range. -/
def push_range (indices : List Nat) (start stop N : Nat) : List Nat :=
  let lh := if start ≤ stop then (start, stop) else (stop, start)
  (List.range' lh.1 (lh.2 + 1 - lh.1)).foldl (fun acc index => push_index acc index N) indices

/-- `finalize_pending` from src/commands.rs.  Returns the new
`(current_digits, range_start, indices)` triple. -/
def finalize_pending (currentDigits : List Char) (rangeStart : Option Nat)
    (indices : List Nat) (N : Nat) : List Char × Option Nat × List Nat :=
  if currentDigits = [] then
    match rangeStart with
    | some start => ([], none, push_index indices start N)
    | none => ([], none, indices)
  else
    let parsed := split_digits currentDigits N
    match rangeStart with
    | some start =>
        match parsed with
        | stop :: rest =>
            ([], none, rest.foldl (fun acc index => push_index acc index N)
              (push_range indices start stop N))
        | [] => ([], none, push_index indices start N)
    | none => ([], none, parsed.foldl (fun acc index => push_index acc index N) indices)

/-- `finalize_range_start` from src/commands.rs.  Returns the new
`(current_digits, range_start, indices)` triple. -/
def finalize_range_start (currentDigits : List Char) (rangeStart : Option Nat)
    (indices : List Nat) (N : Nat) : List Char × Option Nat × List Nat :=
  if currentDigits = [] then (currentDigits, rangeStart, indices)
  else
    let parsed := split_digits currentDigits N
    if parsed = [] then ([], none, indices)
    else ([], parsed.getLast?,
      parsed.dropLast.foldl (fun acc index => push_index acc index N) indices)

/-- The alias-union loop inside `parse_commands` (src/commands.rs lines
181-185): push each index of the alias group that is not already in the
working set. -/
def aliasUnion (indices : List Nat) (group : List Nat) : List Nat :=
  group.foldl (fun acc index => if acc.contains index then acc else acc ++ [index]) indices

/-- The mutable local state of `parse_commands`. -/
structure ParseState where
  result : List (Nat × List Action)
  currentDigits : List Char
  rangeStart : Option Nat
  indices : List Nat
  afterAction : Bool
deriving DecidableEq, Repr

/-- The body of the `for ch in input.chars()` loop of `parse_commands`
(src/commands.rs).  The source tests the character classes in sequence
with `continue`; the classes are pairwise disjoint, so the nested
if-chain is equivalent. -/
def parseStep (N : Nat) (targets : List (Char × List Nat)) (s : ParseState) (ch : Char) :
    ParseState :=
  if ch.isDigit then
    let s := if s.afterAction then
        { s with indices := [], rangeStart := none, currentDigits := [], afterAction := false }
      else s
    { s with currentDigits := s.currentDigits ++ [ch] }
  else if ch = '-' then
    if s.afterAction then s
    else
      let fin := finalize_range_start s.currentDigits s.rangeStart s.indices N
      { s with currentDigits := fin.1, rangeStart := fin.2.1, indices := fin.2.2 }
  else if ch = ' ' ∨ ch = ',' then
    let fin := finalize_pending s.currentDigits s.rangeStart s.indices N
    { s with currentDigits := fin.1, rangeStart := fin.2.1, indices := fin.2.2 }
  else if is_target_char ch then
    let s := if s.afterAction then
        { s with indices := [], rangeStart := none, currentDigits := [], afterAction := false }
      else s
    let fin := finalize_pending s.currentDigits s.rangeStart s.indices N
    let withGroup :=
      match List.lookup ch targets with
      | some group => aliasUnion fin.2.2 group
      | none => fin.2.2
    { s with currentDigits := fin.1, rangeStart := fin.2.1, indices := withGroup }
  else
    match Action.fromChar ch with
    | some action =>
        let fin := finalize_pending s.currentDigits s.rangeStart s.indices N
        let result :=
          if fin.2.2 ≠ [] then fin.2.2.foldl (fun r index => alPush r index action) s.result
          else s.result
        { result := result, currentDigits := fin.1, rangeStart := fin.2.1,
          indices := fin.2.2, afterAction := true }
    | none =>
        { result := s.result, currentDigits := [], rangeStart := none,
          indices := [], afterAction := false }

/-- `parse_commands` from src/commands.rs. -/
def parse_commands (input : String) (notificationCount : Nat)
    (targets : List (Char × List Nat)) : List (Nat × List Action) :=
  (input.data.foldl (parseStep notificationCount targets)
    { result := [], currentDigits := [], rangeStart := none,
      indices := [], afterAction := false }).result

/-! ## Target resolver and action filter (src/ui.rs) -/

/-- `STATUS_ORDER` from src/ui.rs. -/
def STATUS_ORDER : List SubjectStatus := [.Draft, .Merged, .Closed]

/-- `ordered_statuses` from src/ui.rs. -/
def ordered_statuses (subject : Subject) : List SubjectStatus :=
  STATUS_ORDER.filter (fun status => subject.status.contains status)

/-- `effective_review_status` from src/ui.rs: a pending-review indicator is
suppressed on any subject whose status already includes Draft, Merged or
Closed. -/
def effective_review_status (subject : Subject) : Option ReviewStatus :=
  match subject.reviewStatus with
  | none => none
  | some status =>
      if status = ReviewStatus.ReviewRequired ∧
          subject.status.any (fun st =>
            st = SubjectStatus.Merged ∨ st = SubjectStatus.Closed ∨ st = SubjectStatus.Draft)
      then none
      else some status

/-- `push_status_targets` from src/ui.rs. -/
def push_status_targets (targets : List (Char × List Nat)) (index : Nat)
    (subject : Subject) : List (Char × List Nat) :=
  let targets := (ordered_statuses subject).foldl
    (fun targets status =>
      let key : Char :=
        match status with
        | .Merged => 'm'
        | .Closed => 'c'
        | .Draft => 'f'
      alPush targets key index)
    targets
  match effective_review_status subject with
  | some reviewStatus =>
      let key : Char :=
        match reviewStatus with
        | .ReviewRequired => '?'
        | .Approved => 'a'
        | .ChangesRequested => 'x'
      alPush targets key index
  | none => targets

/-- `build_target_map` from src/ui.rs. -/
def build_target_map (notifications : List Notification) (myPrs : List MyPullRequest) :
    List (Char × List Nat) :=
  let targets := (notifications.enum).foldl
    (fun targets p =>
      let index := p.1 + 1
      let targets := if p.2.unread then alPush targets 'u' index else targets
      push_status_targets targets index p.2.subject)
    []
  (myPrs.enum).foldl
    (fun targets p =>
      let index := notifications.length + p.1 + 1
      push_status_targets targets index p.2.subject)
    targets

/-- `PendingEntry` from src/ui.rs. -/
inductive PendingEntry where
  | Notification (isPullRequest : Bool)
  | MyPullRequest
deriving DecidableEq, Repr

/-- `eq_ignore_ascii_case` against the fixed string "pullrequest". -/
def kindIsPullRequest (kind : String) : Bool :=
  kind.data.map Char.toLower = "pullrequest".data

/-- `action_allowed` from src/ui.rs, restricted to the `Action` variants of
this snapshot's src/types.rs (the `PrettyYank`/`ReviewNoAnalyze` arms of
src/ui.rs name variants that enum does not have and that
`Action::from_char` can never produce). -/
def action_allowed (action : Action) (entry : PendingEntry) : Bool :=
  match entry with
  | .Notification isPullRequest =>
      match action with
      | .Branch => isPullRequest
      | _ => true
  | .MyPullRequest =>
      match action with
      | .Open | .Yank | .Unsubscribe | .Review | .Branch => true
      | _ => false

/-- The body of the `for (index, actions) in parsed` loop of
`filter_pending_actions` (src/ui.rs): resolve the index to its entity
kind, keep only the actions legal for that kind, and drop the entry when
the action list becomes empty (or no entity exists at the index). -/
def filterStep (notifications : List Notification) (myPrs : List MyPullRequest)
    (filtered : List (Nat × List Action)) (p : Nat × List Action) :
    List (Nat × List Action) :=
  match (if p.1 ≤ notifications.length then
      (notifications.get? (p.1 - 1)).map
        (fun n => PendingEntry.Notification (kindIsPullRequest n.subject.kind))
    else
      (myPrs.get? (p.1 - (notifications.length + 1))).map
        (fun _ => PendingEntry.MyPullRequest) : Option PendingEntry) with
  | none => filtered
  | some entry =>
      if p.2.filter (fun action => action_allowed action entry) ≠ [] then
        alInsert filtered p.1 (p.2.filter (fun action => action_allowed action entry))
      else filtered

/-- `filter_pending_actions` from src/ui.rs. -/
def filter_pending_actions (parsed : List (Nat × List Action))
    (notifications : List Notification) (myPrs : List MyPullRequest) :
    List (Nat × List Action) :=
  parsed.foldl (filterStep notifications myPrs) []

/-- `build_pending_map` from src/ui.rs. -/
def build_pending_map (input : String) (notifications : List Notification)
    (myPrs : List MyPullRequest) : List (Nat × List Action) :=
  let targets := build_target_map notifications myPrs
  let parsed := parse_commands input (notifications.length + myPrs.length) targets
  filter_pending_actions parsed notifications myPrs

/-! ## Override ledger and optimistic reconciler (src/main.rs) -/

/-- `NotificationOverrideState` from src/main.rs. -/
inductive NotificationOverrideState where
  | Read
  | Suppress
deriving DecidableEq, Repr

/-- `NotificationOverride` from src/main.rs (`marked_at : i64`). -/
structure NotificationOverride where
  state : NotificationOverrideState
  markedAt : Int
deriving DecidableEq, Repr

/-- `record_override_state` from src/main.rs: merge the next override into
the one accumulated so far; `Suppress` dominates. -/
def record_override_state (current : Option NotificationOverrideState)
    (next : NotificationOverrideState) : Option NotificationOverrideState :=
  let merged : NotificationOverrideState :=
    match current, next with
    | some .Suppress, _ => .Suppress
    | _, .Suppress => .Suppress
    | _, _ => .Read
  some merged

/-- The merge match inside the `and_modify` closure of
`record_notification_override` (src/main.rs lines 602-606), hoisted into
a named function with the same three arms. -/
def mergeOverrideStates (existing next : NotificationOverrideState) :
    NotificationOverrideState :=
  match existing, next with
  | .Suppress, _ => .Suppress
  | _, .Suppress => .Suppress
  | _, _ => .Read

/-- `record_notification_override` from src/main.rs.  `chrono::Utc::now()`
is passed explicitly as `now`. -/
def record_notification_override : List (String × NotificationOverride) → String →
    NotificationOverrideState → Int → List (String × NotificationOverride)
  | [], notificationId, state, now => [(notificationId, ⟨state, now⟩)]
  | (k, existing) :: rest, notificationId, state, now =>
      if k = notificationId then
        (k, ⟨mergeOverrideStates existing.state state, now⟩) :: rest
      else (k, existing) :: record_notification_override rest notificationId state now

/-- The per-notification body of `AppState::apply_notification_overrides`
(src/main.rs): the accumulator carries the merged list built so far and
the `clear_ids` list. -/
def applyOverrideStep (includeRead : Bool)
    (overrides : List (String × NotificationOverride))
    (acc : List Notification × List String) (n : Notification) :
    List Notification × List String :=
  match List.lookup n.id overrides with
  | none => (acc.1 ++ [n], acc.2)
  | some ov =>
      if ov.markedAt < n.updatedAt then
        -- New activity should always surface, even if we previously hid it.
        (acc.1 ++ [n], acc.2 ++ [n.id])
      else
        match ov.state with
        | .Read =>
            let serverUnread := n.unread
            let n := if serverUnread then { n with unread := false } else n
            if ¬ includeRead then acc
            else
              let clearIds := if ¬ serverUnread then acc.2 ++ [n.id] else acc.2
              (acc.1 ++ [n], clearIds)
        | .Suppress =>
            -- Keep it hidden until the server reports newer activity.
            acc

/-- `AppState::apply_notification_overrides` from src/main.rs, as a
function of the fields it touches: returns the merged notification list
and the ledger with the collected `clear_ids` removed. -/
def apply_notification_overrides (includeRead : Bool)
    (overrides : List (String × NotificationOverride))
    (notifications : List Notification) :
    List Notification × List (String × NotificationOverride) :=
  if overrides = [] then (notifications, overrides)
  else
    let merged := notifications.foldl (applyOverrideStep includeRead overrides) ([], [])
    (merged.1, overrides.filter (fun p => ¬ merged.2.contains p.1))

/-- The mutable state of `AppState` (src/main.rs) that the reconciler
touches.  Input buffer, status text and rendering caches are out of scope. -/
structure AppState where
  notifications : List Notification
  myPrs : List MyPullRequest
  includeRead : Bool
  ignoredPrs : List String
  notificationOverrides : List (String × NotificationOverride)
deriving DecidableEq, Repr

/-- Descending insertion of one index, modelling
`remove_notifications.sort_unstable_by(|a, b| b.cmp(a))`. -/
def insertDesc (x : Nat) : List Nat → List Nat
  | [] => [x]
  | y :: ys => if y ≤ x then x :: y :: ys else y :: insertDesc x ys

/-- Sort descending (the order `sort_unstable_by(|a, b| b.cmp(a))`
produces; on `Nat` keys the sorted list is unique, so the unstable sort is
modelled exactly). -/
def sortDesc (l : List Nat) : List Nat := l.foldr insertDesc []

/-- Ascending insertion of one index, modelling
`remove_my_prs.sort_unstable()`. -/
def insertAsc (x : Nat) : List Nat → List Nat
  | [] => [x]
  | y :: ys => if x ≤ y then x :: y :: ys else y :: insertAsc x ys

/-- Sort ascending. -/
def sortAsc (l : List Nat) : List Nat := l.foldr insertAsc []

/-- The per-action body of the notification arm of
`apply_optimistic_update` (src/main.rs): mutate the notification, decide
removal, and accumulate the override state with `record_override_state`.
`Yank`/`Review` do nothing; `Branch` has no arm in this snapshot of
src/main.rs and is likewise inert. -/
def applyActionsToNotification (includeRead : Bool) (n : Notification)
    (actions : List Action) : Notification × Bool × Option NotificationOverrideState :=
  actions.foldl
    (fun acc action =>
      match action with
      | .Open | .Read =>
          ({ acc.1 with unread := false },
            (if ¬ includeRead then true else acc.2.1),
            record_override_state acc.2.2 .Read)
      | .Done | .Unsubscribe =>
          ({ acc.1 with unread := false }, true, record_override_state acc.2.2 .Suppress)
      | .Yank | .Review | .Branch => acc)
    (n, false, none)

/-- `apply_optimistic_update` from src/main.rs.  `commands` is the pending
map; removal happens as a single batch after the scan, notifications
highest-index-first, personal pull requests via sort-dedup-reverse. -/
def apply_optimistic_update (app : AppState) (commands : List (Nat × List Action))
    (now : Int) : AppState :=
  let notificationCount := app.notifications.length
  let scanned := commands.foldl
    (fun (acc : AppState × List Nat × List Nat) cmd =>
      let app := acc.1
      let index := cmd.1
      let actions := cmd.2
      if index = 0 then acc
      else if index ≤ notificationCount then
        let idx := index - 1
        match app.notifications.get? idx with
        | none => acc
        | some notification =>
            let applied := applyActionsToNotification app.includeRead notification actions
            let app := { app with notifications := app.notifications.set idx applied.1 }
            let removeNotifications :=
              if applied.2.1 then acc.2.1 ++ [idx] else acc.2.1
            let app :=
              match applied.2.2 with
              | some state =>
                  { app with notificationOverrides :=
                      (record_notification_override app.notificationOverrides
                        notification.id state now) }
              | none => app
            (app, removeNotifications, acc.2.2)
      else
        let idx := index - (notificationCount + 1)
        if app.myPrs.length ≤ idx then acc
        else
          let ignore := actions.contains Action.Unsubscribe
          if ignore then
            let app :=
              match app.myPrs.get? idx with
              | some pr =>
                  { app with ignoredPrs :=
                      if app.ignoredPrs.contains pr.url then app.ignoredPrs
                      else app.ignoredPrs ++ [pr.url] }
              | none => app
            (app, acc.2.1, acc.2.2 ++ [idx])
          else acc)
    (app, [], [])
  let app := scanned.1
  let app := { app with notifications :=
      ((sortDesc scanned.2.1).foldl
        (fun l idx => if idx < l.length then l.eraseIdx idx else l)
        app.notifications) }
  { app with myPrs :=
      ((((sortAsc scanned.2.2).destutter (· ≠ ·)).reverse).foldl
        (fun l idx => if idx < l.length then l.eraseIdx idx else l)
        app.myPrs) }

/-! ## Concurrent executor (src/main.rs) -/

/-- `EntrySnapshot` from src/main.rs. -/
inductive EntrySnapshot where
  | Notification (n : Ghn.Notification)
  | MyPullRequest (pr : Ghn.MyPullRequest)
deriving DecidableEq, Repr

/-- `EntrySnapshot::url` from src/main.rs: the subject URL. -/
def EntrySnapshot.url : EntrySnapshot → String
  | .Notification n => n.subject.url
  | .MyPullRequest pr => pr.subject.url

/-- `entry_for_index` from src/main.rs. -/
def entry_for_index (index : Nat) (notifications : List Notification)
    (myPrs : List MyPullRequest) : Option EntrySnapshot :=
  if index = 0 then none
  else if index ≤ notifications.length then
    (notifications.get? (index - 1)).map EntrySnapshot.Notification
  else
    (myPrs.get? (index - notifications.length - 1)).map EntrySnapshot.MyPullRequest

/-- One external call made by `execute_action` (src/main.rs). -/
inductive ExecCall where
  | openBrowser (url : String)
  | copyClipboard (url : String)
  | netMarkRead (nodeId : String)
  | netMarkDone (nodeId : String)
  | netUnsubscribe (subjectId : String)
  | appendIgnoredPr (url : String)
deriving DecidableEq, Repr

/-- The sequence of external calls `execute_action` (src/main.rs) makes on
its success path for a given action and entry snapshot (`url` is
`entry.url()`, bound by `execute_commands`).  `Review` returns an error
without calling anything; `Branch` has no arm in this snapshot of
src/main.rs and is modelled as making no calls. -/
def executeActionCalls (action : Action) (entry : EntrySnapshot) (url : String) :
    List ExecCall :=
  match action with
  | .Open =>
      ExecCall.openBrowser url ::
        (match entry with
        | .Notification n => if n.unread then [ExecCall.netMarkRead n.nodeId] else []
        | .MyPullRequest _ => [])
  | .Yank => [ExecCall.copyClipboard url]
  | .Read =>
      match entry with
      | .Notification n => [ExecCall.netMarkRead n.nodeId]
      | .MyPullRequest _ => []
  | .Done =>
      match entry with
      | .Notification n => [ExecCall.netMarkDone n.nodeId]
      | .MyPullRequest _ => []
  | .Unsubscribe =>
      match entry with
      | .Notification n =>
          (match n.subjectId with
          | some subjectId => [ExecCall.netUnsubscribe subjectId]
          | none => []) ++ [ExecCall.netMarkDone n.nodeId]
      | .MyPullRequest _ => [ExecCall.appendIgnoredPr url]
  | .Review => []
  | .Branch => []

/-! ## Numeric value of a digit string -/

/-- The numeric value the scanning loop of `longest_valid_prefix` assigns
to a whole character list (Horner evaluation, most significant first). -/
def prefixVal (ds : List Char) : Nat :=
  ds.foldl (fun v c => 10 * v + charDigit c) 0

/-- `l` is the length of a prefix of `ds` that forms a valid index in
`[1, N]`. -/
def IsValidLen (ds : List Char) (N l : Nat) : Prop :=
  1 ≤ l ∧ l ≤ ds.length ∧ 1 ≤ prefixVal (ds.take l) ∧ prefixVal (ds.take l) ≤ N

instance (ds : List Char) (N l : Nat) : Decidable (IsValidLen ds N l) := by
  unfold IsValidLen; infer_instance

theorem charDigit_lt (ch : Char) : charDigit ch < 10 := by
  unfold charDigit
  split
  · rename_i h
    simp only [Char.isDigit, Bool.and_eq_true, decide_eq_true_eq] at h
    have h2 : ch.val.toNat ≤ 57 := by
      have h3 := h.2
      simp only [UInt32.le_def, BitVec.le_def] at h3
      have h4 : (57 : UInt32).toBitVec.toNat = 57 := by decide
      simp only [UInt32.toNat]
      omega
    simp only [Char.toNat]
    omega
  · omega

theorem prefixVal_append_singleton (xs : List Char) (c : Char) :
    prefixVal (xs ++ [c]) = 10 * prefixVal xs + charDigit c := by
  unfold prefixVal
  rw [List.foldl_append]
  rfl

theorem prefixVal_take_succ_le (ds : List Char) (m : Nat) :
    prefixVal (ds.take m) ≤ prefixVal (ds.take (m + 1)) := by
  rw [List.take_succ]
  cases h : ds[m]? with
  | none => simp
  | some c =>
      simp only [Option.toList_some]
      rw [prefixVal_append_singleton]
      omega

theorem prefixVal_take_mono (ds : List Char) {l l' : Nat} (h : l ≤ l') :
    prefixVal (ds.take l) ≤ prefixVal (ds.take l') := by
  induction l' with
  | zero => simp_all
  | succ m ih =>
      rcases Nat.lt_or_ge l (m + 1) with hm | hm
      · exact le_trans (ih (by omega)) (prefixVal_take_succ_le ds m)
      · have : l = m + 1 := by omega
        subst this
        rfl

/-! ## Correctness of the greedy longest-valid-prefix scan -/

/-- Invariant on the `best` accumulator of the scanning loop after `pos`
characters have been consumed. -/
def BestInv (ds : List Char) (N pos : Nat) : Option (Nat × Nat) → Prop
  | none => ∀ l, l ≤ pos → ¬ IsValidLen ds N l
  | some (v, l) => IsValidLen ds N l ∧ v = prefixVal (ds.take l) ∧ l ≤ pos ∧
      ∀ l', l' ≤ pos → IsValidLen ds N l' → l' ≤ l

/-- What the finished scan returns: `none` iff no prefix of `ds` is a
valid index, otherwise the value and length of the longest valid prefix. -/
def BestFinal (ds : List Char) (N : Nat) : Option (Nat × Nat) → Prop
  | none => ∀ l, ¬ IsValidLen ds N l
  | some (v, l) => IsValidLen ds N l ∧ v = prefixVal (ds.take l) ∧
      ∀ l', IsValidLen ds N l' → l' ≤ l

theorem lvpAux_correct (N : Nat) (hN : 10 * N + 9 < USIZE) :
    ∀ (r c : List Char) (best : Option (Nat × Nat)),
      prefixVal c ≤ N →
      BestInv (c ++ r) N c.length best →
      BestFinal (c ++ r) N (lvpAux N r (prefixVal c) c.length best) := by
  intro r
  induction r with
  | nil =>
      intro c best _hval hbest
      rw [lvpAux]
      match best with
      | none =>
          intro l
          by_cases hl : l ≤ c.length
          · exact hbest l hl
          · intro hv
            exact hl (by simpa using hv.2.1)
      | some (v, l) =>
          obtain ⟨h1, h2, _h3, h4⟩ := hbest
          refine ⟨h1, h2, fun l' hv => h4 l' ?_ hv⟩
          simpa using hv.2.1
  | cons ch r' ih =>
      intro c best hval hbest
      rw [lvpAux]
      have hover : ¬ (USIZE ≤ 10 * prefixVal c + charDigit ch) := by
        have := charDigit_lt ch
        omega
      rw [if_neg hover]
      have hfull : c ++ ch :: r' = (c ++ [ch]) ++ r' := by simp
      have hnext : prefixVal (c ++ [ch]) = 10 * prefixVal c + charDigit ch :=
        prefixVal_append_singleton c ch
      have hlen : (c ++ [ch]).length = c.length + 1 := by simp
      have htake : ((c ++ [ch]) ++ r').take (c.length + 1) = c ++ [ch] := by
        have := List.take_left (c ++ [ch]) r'
        rwa [hlen] at this
      have htake' : (c ++ ch :: r').take (c.length + 1) = c ++ [ch] := by
        rw [hfull]; exact htake
      set next := 10 * prefixVal c + charDigit ch with hnextdef
      -- the updated best accumulator satisfies the invariant at pos + 1
      have hbest' : BestInv (c ++ ch :: r') N (c.length + 1)
          (if 1 ≤ next ∧ next ≤ N then some (next, c.length + 1) else best) := by
        by_cases hv : 1 ≤ next ∧ next ≤ N
        · rw [if_pos hv]
          refine ⟨⟨by omega, ?_, ?_, ?_⟩, ?_, le_refl _, fun l' hl' _ => hl'⟩
          · simp
          · rw [htake', hnext]; omega
          · rw [htake', hnext]; omega
          · rw [htake']; exact hnext.symm
        · rw [if_neg hv]
          have hnotvalid : ¬ IsValidLen (c ++ ch :: r') N (c.length + 1) := by
            intro hcontra
            obtain ⟨_, _, hlo, hhi⟩ := hcontra
            rw [htake', hnext] at hlo hhi
            exact hv ⟨hlo, hhi⟩
          match best with
          | none =>
              intro l hl
              rcases Nat.lt_or_ge l (c.length + 1) with hlt | hge
              · exact hbest l (by omega)
              · have : l = c.length + 1 := by omega
                subst this
                exact hnotvalid
          | some (v, l) =>
              obtain ⟨h1, h2, h3, h4⟩ := hbest
              refine ⟨h1, h2, by omega, fun l' hl' hvl' => ?_⟩
              rcases Nat.lt_or_ge l' (c.length + 1) with hlt | hge
              · exact h4 l' (by omega) hvl'
              · have heq : l' = c.length + 1 := by omega
                rw [heq] at hvl'
                exact absurd hvl' hnotvalid
      by_cases hbrk : N < next ∧ next ≠ 0
      · rw [if_pos hbrk]
        -- every prefix longer than pos + 1 has value ≥ next > N, so the
        -- accumulated best is the global longest valid prefix
        have hbig : ∀ l', c.length + 1 ≤ l' →
            ¬ IsValidLen (c ++ ch :: r') N l' := by
          intro l' hl' hcontra
          obtain ⟨_, _, _, hhi⟩ := hcontra
          have hmono := prefixVal_take_mono (c ++ ch :: r') hl'
          rw [htake', hnext] at hmono
          omega
        set best' := if 1 ≤ next ∧ next ≤ N then some (next, c.length + 1) else best
          with hbestdef
        match hb : best' with
        | none =>
            intro l hcontra
            rcases Nat.lt_or_ge l (c.length + 1) with hlt | hge
            · exact hbest' l (by omega) hcontra
            · exact hbig l hge hcontra
        | some (v, l) =>
            obtain ⟨h1, h2, _h3, h4⟩ := hbest'
            refine ⟨h1, h2, fun l' hvl' => ?_⟩
            rcases Nat.lt_or_ge l' (c.length + 1) with hlt | hge
            · exact h4 l' (by omega) hvl'
            · exact absurd hvl' (hbig l' hge)
      · rw [if_neg hbrk]
        have hval' : prefixVal (c ++ [ch]) ≤ N := by
          rw [hnext]
          rcases Nat.lt_or_ge N next with h | h
          · have : next = 0 := by
              by_contra hne
              exact hbrk ⟨h, hne⟩
            omega
          · omega
        have := ih (c ++ [ch])
          (if 1 ≤ next ∧ next ≤ N then some (next, c.length + 1) else best)
          hval' (by rw [← hfull, hlen] at *; exact hbest')
        rw [← hfull, hlen, hnext] at this
        exact this

/-- `longest_valid_prefix` returns exactly the longest prefix of `digits`
whose value is a valid index in `[1, N]`, when no `usize` overflow can
occur (`10 * N + 9 < 2 ^ 64`; the scan breaks as soon as the value
exceeds `N`, so intermediate values never exceed `10 * N + 9`). -/
theorem lvp_correct (ds : List Char) (N : Nat) (hN : 10 * N + 9 < USIZE) :
    BestFinal ds N ( longest_valid_prefix ds N) := by
  have := lvpAux_correct N hN ds [] none (by simp [prefixVal]) (by
    intro l hl hv
    obtain ⟨h1, -, -, -⟩ := hv
    simp only [List.length_nil, Nat.le_zero] at hl
    omega)
  simpa [ longest_valid_prefix, prefixVal] using this

theorem lvpAux_one_le (N : Nat) :
    ∀ (r : List Char) (value pos : Nat) (best : Option (Nat × Nat)) (v l : Nat),
      (∀ v' l', best = some (v', l') → 1 ≤ l') →
      lvpAux N r value pos best = some (v, l) → 1 ≤ l := by
  intro r
  induction r with
  | nil =>
      intro value pos best v l hbest h
      rw [lvpAux] at h
      exact hbest v l h
  | cons ch rest ih =>
      intro value pos best v l hbest h
      rw [lvpAux] at h
      by_cases hover : USIZE ≤ 10 * value + charDigit ch
      · rw [if_pos hover] at h
        exact hbest v l h
      · rw [if_neg hover] at h
        have hbest' : ∀ v' l',
            (if 1 ≤ 10 * value + charDigit ch ∧ 10 * value + charDigit ch ≤ N
              then some (10 * value + charDigit ch, pos + 1) else best) = some (v', l') →
            1 ≤ l' := by
          intro v' l' h'
          by_cases hc : 1 ≤ 10 * value + charDigit ch ∧ 10 * value + charDigit ch ≤ N
          · rw [if_pos hc] at h'
            cases h'
            omega
          · rw [if_neg hc] at h'
            exact hbest v' l' h'
        by_cases hbrk : N < 10 * value + charDigit ch ∧ 10 * value + charDigit ch ≠ 0
        · rw [if_pos hbrk] at h
          exact hbest' v l h
        · rw [if_neg hbrk] at h
          exact ih _ _ _ v l hbest' h

theorem lvp_one_le {ds : List Char} {N v l : Nat}
    (h : longest_valid_prefix ds N = some (v, l)) : 1 ≤ l :=
  lvpAux_one_le N ds 0 0 none v l (by intro _ _ h'; cases h') h

theorem lvp_nil (N : Nat) : longest_valid_prefix [] N = none := rfl

theorem splitGo_nil (N fuel : Nat) : splitGo N fuel [] = [] := by
  cases fuel <;> rfl

theorem splitGo_fuel_irrel (N : Nat) :
    ∀ (fuel₁ : Nat) (ds : List Char) (fuel₂ : Nat),
      ds.length ≤ fuel₁ → ds.length ≤ fuel₂ →
      splitGo N fuel₁ ds = splitGo N fuel₂ ds := by
  intro fuel₁
  induction fuel₁ with
  | zero =>
      intro ds fuel₂ h₁ _h₂
      have : ds = [] := by
        cases ds
        · rfl
        · simp at h₁
      subst this
      rw [splitGo_nil, splitGo_nil]
  | succ fuel ih =>
      intro ds fuel₂ h₁ h₂
      cases ds with
      | nil => rw [splitGo_nil, splitGo_nil]
      | cons ch t =>
          have hlen : (ch :: t).length = t.length + 1 := rfl
          obtain ⟨fuel', rfl⟩ : ∃ f, fuel₂ = f + 1 := by
            cases fuel₂
            · simp at h₂
            · exact ⟨_, rfl⟩
          rw [splitGo, splitGo]
          cases hlvp : longest_valid_prefix (ch :: t) N with
          | none => rfl
          | some vl =>
              obtain ⟨v, l⟩ := vl
              have hl : 1 ≤ l := lvp_one_le hlvp
              have hdrop : ((ch :: t).drop l).length ≤ fuel := by
                rw [List.length_drop]
                simp only [hlen] at h₁ ⊢
                omega
              have hdrop' : ((ch :: t).drop l).length ≤ fuel' := by
                rw [List.length_drop]
                simp only [hlen] at h₂ ⊢
                omega
              exact congrArg (v :: ·) (ih _ fuel' hdrop hdrop')

/-- The source recurrence of `split_digits`: take the longest valid
prefix, emit its value, and continue on the remainder; stop when no
prefix is valid. -/
theorem split_digits_eq (ds : List Char) (N : Nat) :
    split_digits ds N =
      match longest_valid_prefix ds N with
      | some (value, len) => value :: split_digits (ds.drop len) N
      | none => [] := by
  cases ds with
  | nil => rfl
  | cons ch t =>
      show splitGo N (ch :: t).length (ch :: t) = _
      simp only [List.length_cons]
      rw [splitGo]
      cases hlvp : longest_valid_prefix (ch :: t) N with
      | none => rfl
      | some vl =>
          obtain ⟨v, l⟩ := vl
          have hl : 1 ≤ l := lvp_one_le hlvp
          have hb : ((ch :: t).drop l).length ≤ t.length := by
            rw [List.length_drop]
            simp only [List.length_cons]
            omega
          unfold split_digits
          exact congrArg (v :: ·) (splitGo_fuel_irrel N t.length _ _ hb (le_refl _))


/-- A digit run whose whole value is a valid index in `[1, N]` parses as
that single index. -/
theorem split_digits_single (ds : List Char) (N : Nat) (hne : ds ≠ [])
    (h1 : 1 ≤ prefixVal ds) (h2 : prefixVal ds ≤ N) (hN : 10 * N + 9 < USIZE) :
    split_digits ds N = [prefixVal ds] := by
  have hvalid : IsValidLen ds N ds.length := by
    refine ⟨?_, le_refl _, ?_, ?_⟩
    · cases ds
      · exact absurd rfl hne
      · simp
    · rw [List.take_length]; exact h1
    · rw [List.take_length]; exact h2
  have hfin := lvp_correct ds N hN
  cases hlvp : longest_valid_prefix ds N with
  | none =>
      rw [hlvp] at hfin
      exact absurd hvalid (hfin ds.length)
  | some vl =>
      obtain ⟨v, l⟩ := vl
      rw [hlvp] at hfin
      simp only [BestFinal] at hfin
      obtain ⟨hv, heq, hmax⟩ := hfin
      have hll : l = ds.length := le_antisymm hv.2.1 (hmax _ hvalid)
      rw [split_digits_eq, hlvp]
      show v :: split_digits (List.drop l ds) N = [prefixVal ds]
      rw [heq, hll, List.take_length, List.drop_length]
      rfl

/-! ## Single-step behaviour of the parser loop -/

theorem parseStep_digit (N : Nat) (targets : List (Char × List Nat)) (s : ParseState)
    (ch : Char) (hd : ch.isDigit = true) (ha : s.afterAction = false) :
    parseStep N targets s ch = { s with currentDigits := s.currentDigits ++ [ch] } := by
  simp [parseStep, hd, ha]

theorem parseStep_digit_after (N : Nat) (targets : List (Char × List Nat)) (s : ParseState)
    (ch : Char) (hd : ch.isDigit = true) (ha : s.afterAction = true) :
    parseStep N targets s ch =
      { result := s.result, currentDigits := [ch], rangeStart := none,
        indices := [], afterAction := false } := by
  simp [parseStep, hd, ha]

theorem runParse_digits (N : Nat) (targets : List (Char × List Nat)) :
    ∀ (dcs : List Char), (∀ c ∈ dcs, c.isDigit = true) →
      ∀ s : ParseState, s.afterAction = false →
        dcs.foldl (parseStep N targets) s =
          { s with currentDigits := s.currentDigits ++ dcs } := by
  intro dcs
  induction dcs with
  | nil =>
      intro _ s _
      simp
  | cons c t ih =>
      intro h s hs
      rw [List.foldl_cons, parseStep_digit N targets s c (h c (by simp)) hs]
      rw [ih (fun c' hc' => h c' (by simp [hc'])) _ (by simp [hs])]
      simp

theorem parseStep_dash (N : Nat) (targets : List (Char × List Nat)) (s : ParseState)
    (ha : s.afterAction = false) :
    parseStep N targets s '-' =
      { s with
          currentDigits := (finalize_range_start s.currentDigits s.rangeStart s.indices N).1,
          rangeStart := (finalize_range_start s.currentDigits s.rangeStart s.indices N).2.1,
          indices := (finalize_range_start s.currentDigits s.rangeStart s.indices N).2.2 } := by
  have h1 : ('-').isDigit = false := by decide
  simp [parseStep, h1, ha]

theorem parseStep_sep (N : Nat) (targets : List (Char × List Nat)) (s : ParseState)
    (ch : Char) (h : ch = ' ' ∨ ch = ',') :
    parseStep N targets s ch =
      { s with
          currentDigits := (finalize_pending s.currentDigits s.rangeStart s.indices N).1,
          rangeStart := (finalize_pending s.currentDigits s.rangeStart s.indices N).2.1,
          indices := (finalize_pending s.currentDigits s.rangeStart s.indices N).2.2 } := by
  rcases h with h | h <;> subst h <;> simp [parseStep, show (' ').isDigit = false by decide,
    show (',').isDigit = false by decide, show ¬ (' ' = '-') by decide,
    show ¬ (',' = '-') by decide]

theorem parseStep_action (N : Nat) (targets : List (Char × List Nat)) (s : ParseState)
    (act : Action) :
    parseStep N targets s act.asChar =
      { result :=
          (if (finalize_pending s.currentDigits s.rangeStart s.indices N).2.2 ≠ [] then
            (finalize_pending s.currentDigits s.rangeStart s.indices N).2.2.foldl
              (fun r index => alPush r index act) s.result
          else s.result),
        currentDigits := (finalize_pending s.currentDigits s.rangeStart s.indices N).1,
        rangeStart := (finalize_pending s.currentDigits s.rangeStart s.indices N).2.1,
        indices := (finalize_pending s.currentDigits s.rangeStart s.indices N).2.2,
        afterAction := true } := by
  cases act <;> rfl

/-- Any character that is not a digit, `-`, space, comma, target alias or
action character resets all accumulated parser state and keeps the
committed result. -/
theorem parseStep_other (N : Nat) (targets : List (Char × List Nat)) (s : ParseState)
    (ch : Char) (hd : ch.isDigit = false) (hdash : ch ≠ '-') (hsp : ch ≠ ' ')
    (hcm : ch ≠ ',') (ht : is_target_char ch = false) (hact : Action.fromChar ch = none) :
    parseStep N targets s ch =
      { result := s.result, currentDigits := [], rangeStart := none,
        indices := [], afterAction := false } := by
  simp [parseStep, hd, hdash, hsp, hcm, ht, hact]

/-! ## Behaviour of `finalize_pending` and `finalize_range_start` -/

theorem finalize_pending_nil_none (N : Nat) (indices : List Nat) :
    finalize_pending [] none indices N = ([], none, indices) := rfl

theorem finalize_pending_nil_some (N : Nat) (start : Nat) (indices : List Nat) :
    finalize_pending [] (some start) indices N = ([], none, push_index indices start N) := rfl

theorem finalize_pending_cons_none (N : Nat) (cd : List Char) (indices : List Nat)
    (hne : cd ≠ []) :
    finalize_pending cd none indices N =
      ([], none, (split_digits cd N).foldl (fun acc index => push_index acc index N) indices) := by
  unfold finalize_pending
  rw [if_neg hne]

theorem finalize_pending_cons_some (N : Nat) (cd : List Char) (start : Nat)
    (indices : List Nat) (stop : Nat) (rest : List Nat) (hne : cd ≠ [])
    (hsplit : split_digits cd N = stop :: rest) :
    finalize_pending cd (some start) indices N =
      ([], none, rest.foldl (fun acc index => push_index acc index N)
        (push_range indices start stop N)) := by
  unfold finalize_pending
  rw [if_neg hne, hsplit]

theorem finalize_range_start_cons (N : Nat) (cd : List Char) (rangeStart : Option Nat)
    (indices : List Nat) (hne : cd ≠ []) (hsplit_ne : split_digits cd N ≠ []) :
    finalize_range_start cd rangeStart indices N =
      ([], (split_digits cd N).getLast?,
        (split_digits cd N).dropLast.foldl (fun acc index => push_index acc index N) indices) := by
  unfold finalize_range_start
  rw [if_neg hne, if_neg hsplit_ne]

/-! ## `push_index`, `push_range` and result-map lemmas -/

theorem push_index_in (indices : List Nat) (i N : Nat) (h1 : 1 ≤ i) (h2 : i ≤ N) :
    push_index indices i N = indices ++ [i] := by
  simp [push_index, h1, h2]

theorem foldl_push_index_all_in (N : Nat) :
    ∀ (l : List Nat), (∀ i ∈ l, 1 ≤ i ∧ i ≤ N) →
      ∀ indices, l.foldl (fun acc index => push_index acc index N) indices = indices ++ l := by
  intro l
  induction l with
  | nil => intro _ indices; simp
  | cons i t ih =>
      intro h indices
      rw [List.foldl_cons, push_index_in indices i N (h i (by simp)).1 (h i (by simp)).2]
      rw [ih (fun j hj => h j (by simp [hj])) _]
      simp

theorem push_range_eq (indices : List Nat) (a b N : Nat) (h1 : 1 ≤ min a b)
    (h2 : max a b ≤ N) :
    push_range indices a b N =
      indices ++ List.range' (min a b) (max a b + 1 - min a b) := by
  have hpair : (if a ≤ b then (a, b) else (b, a)) = (min a b, max a b) := by
    rcases le_or_lt a b with h | h
    · rw [if_pos h, min_eq_left h, max_eq_right h]
    · rw [if_neg (not_le.mpr h), min_eq_right h.le, max_eq_left h.le]
  show (List.range' (if a ≤ b then (a, b) else (b, a)).1
      ((if a ≤ b then (a, b) else (b, a)).2 + 1 -
        (if a ≤ b then (a, b) else (b, a)).1)).foldl
      (fun acc index => push_index acc index N) indices = _
  rw [hpair]
  refine foldl_push_index_all_in N _ ?_ indices
  intro i hi
  simp only [List.mem_range'] at hi
  obtain ⟨j, hj, rfl⟩ := hi
  omega

theorem alPush_fresh {κ ν : Type} [DecidableEq κ] (k : κ) (v : ν) :
    ∀ (m : List (κ × List ν)), (∀ p ∈ m, p.1 ≠ k) → alPush m k v = m ++ [(k, [v])] := by
  intro m
  induction m with
  | nil => intro _; rfl
  | cons p t ih =>
      intro h
      obtain ⟨k', vs⟩ := p
      rw [alPush, if_neg (h (k', vs) (by simp)), ih (fun q hq => h q (by simp [hq]))]
      rfl

theorem foldl_alPush_range' (a : Action) :
    ∀ (n s : Nat) (acc : List (Nat × List Action)), (∀ p ∈ acc, p.1 < s) →
      (List.range' s n).foldl (fun r index => alPush r index a) acc =
        acc ++ (List.range' s n).map (fun i => (i, [a])) := by
  intro n
  induction n with
  | zero => intro s acc _; simp
  | succ m ih =>
      intro s acc h
      rw [List.range'_succ, List.foldl_cons,
        alPush_fresh s a acc (fun p hp => Nat.ne_of_lt (h p hp)),
        ih (s + 1) _ ?_]
      · simp [List.range'_succ]
      · intro p hp
        rcases List.mem_append.mp hp with hp | hp
        · exact Nat.lt_succ_of_lt (h p hp)
        · simp only [List.mem_singleton] at hp
          subst hp
          omega

theorem lookup_map_const {v : List Action} :
    ∀ (l : List Nat) (i : Nat),
      List.lookup i (l.map (fun j => (j, v))) = if i ∈ l then some v else none := by
  intro l
  induction l with
  | nil => intro i; simp
  | cons j t ih =>
      intro i
      by_cases hij : j = i
      · subst hij
        simp [List.lookup]
      · have hbeq : (i == j) = false := beq_eq_false_iff_ne.mpr (Ne.symm hij)
        show (match i == j with
          | true => some v
          | false => List.lookup i (t.map (fun j => (j, v)))) = _
        rw [hbeq]
        show List.lookup i (t.map (fun j => (j, v))) = _
        rw [ih i]
        by_cases hit : i ∈ t
        · simp [hit]
        · simp [hit, Ne.symm hij]

/-! ## Decimal rendering of an index -/

/-- The character of one decimal digit. -/
def digitChar (d : Nat) : Char := Char.ofNat (48 + d)

/-- The decimal rendering of `n`, most significant digit first (what a
user types for index `n`). -/
def digitsOf (n : Nat) : List Char := ((Nat.digits 10 n).map digitChar).reverse

theorem digitChar_isDigit {d : Nat} (h : d < 10) : (digitChar d).isDigit = true := by
  interval_cases d <;> decide

theorem charDigit_digitChar {d : Nat} (h : d < 10) : charDigit (digitChar d) = d := by
  interval_cases d <;> decide

theorem prefixVal_rev_map (L : List Nat) (h : ∀ d ∈ L, d < 10) :
    prefixVal ((L.map digitChar).reverse) = Nat.ofDigits 10 L := by
  induction L with
  | nil => simp [prefixVal, Nat.ofDigits_nil]
  | cons d t ih =>
      rw [List.map_cons, List.reverse_cons, prefixVal_append_singleton,
        ih (fun d' hd' => h d' (by simp [hd'])), charDigit_digitChar (h d (by simp)),
        Nat.ofDigits_cons]
      ring

theorem prefixVal_digitsOf (n : Nat) : prefixVal (digitsOf n) = n := by
  rw [digitsOf, prefixVal_rev_map _ (fun d hd => Nat.digits_lt_base (by norm_num) hd),
    Nat.ofDigits_digits]

theorem digitsOf_ne_nil {n : Nat} (h : n ≠ 0) : digitsOf n ≠ [] := by
  simp [digitsOf, Nat.digits_ne_nil_iff_ne_zero.mpr h]

theorem digitsOf_all_digits (n : Nat) : ∀ c ∈ digitsOf n, c.isDigit = true := by
  intro c hc
  simp only [digitsOf, List.mem_reverse, List.mem_map] at hc
  obtain ⟨d, hd, rfl⟩ := hc
  exact digitChar_isDigit (Nat.digits_lt_base (by norm_num) hd)

/-- With value bounds in place, the decimal rendering of an in-range index
splits as exactly that index. -/
theorem split_digits_digitsOf (a N : Nat) (h1 : 1 ≤ a) (h2 : a ≤ N)
    (hN : 10 * N + 9 < USIZE) : split_digits (digitsOf a) N = [a] := by
  have := split_digits_single (digitsOf a) N (digitsOf_ne_nil (by omega))
    (by rw [prefixVal_digitsOf]; omega) (by rw [prefixVal_digitsOf]; omega) hN
  rwa [prefixVal_digitsOf] at this

/-! ## Symbolic runs of the parser -/

/-- Parsing the command line `a-b` followed by one action character
produces exactly the normalized inclusive range, each index mapped to
that single action. -/
theorem parse_range_input (N : Nat) (targets : List (Char × List Nat)) (a b : Nat)
    (act : Action) (h1a : 1 ≤ a) (h2a : a ≤ N) (h1b : 1 ≤ b) (h2b : b ≤ N)
    (hN : 10 * N + 9 < USIZE) :
    parse_commands (String.mk (digitsOf a ++ ('-' :: (digitsOf b ++ [act.asChar])))) N targets
      = (List.range' (min a b) (max a b + 1 - min a b)).map (fun i => (i, [act])) := by
  have hsplita : split_digits (digitsOf a) N = [a] := split_digits_digitsOf a N h1a h2a hN
  have hsplitb : split_digits (digitsOf b) N = [b] := split_digits_digitsOf b N h1b h2b hN
  unfold parse_commands
  show ((digitsOf a ++ ('-' :: (digitsOf b ++ [act.asChar]))).foldl
    (parseStep N targets)
    { result := [], currentDigits := [], rangeStart := none,
      indices := [], afterAction := false }).result = _
  rw [List.foldl_append]
  rw [runParse_digits N targets (digitsOf a) (digitsOf_all_digits a) _ rfl]
  rw [List.foldl_cons]
  rw [parseStep_dash N targets _ rfl]
  simp only [List.nil_append]
  rw [finalize_range_start_cons N (digitsOf a) none [] (digitsOf_ne_nil (by omega))
    (by rw [hsplita]; simp)]
  rw [hsplita]
  simp only [List.getLast?_singleton, List.dropLast_single, List.foldl_nil]
  rw [List.foldl_append]
  rw [runParse_digits N targets (digitsOf b) (digitsOf_all_digits b) _ rfl]
  rw [List.foldl_cons, List.foldl_nil]
  rw [parseStep_action N targets _ act]
  simp only [List.nil_append]
  rw [finalize_pending_cons_some N (digitsOf b) a [] b [] (digitsOf_ne_nil (by omega)) hsplitb]
  simp only [List.foldl_nil]
  rw [push_range_eq [] a b N (by omega) (by omega)]
  simp only [List.nil_append]
  have hne : List.range' (min a b) (max a b + 1 - min a b) ≠ [] := by
    rw [Ne, List.range'_eq_nil]
    omega
  rw [if_pos hne]
  rw [foldl_alPush_range' act _ _ _ (by intro p hp; simp at hp)]
  simp

theorem parseStep_action_char (N : Nat) (targets : List (Char × List Nat)) (s : ParseState)
    (act : Action) (c : Char) (hc : Action.asChar act = c) :
    parseStep N targets s c =
      { result :=
          (if (finalize_pending s.currentDigits s.rangeStart s.indices N).2.2 ≠ [] then
            (finalize_pending s.currentDigits s.rangeStart s.indices N).2.2.foldl
              (fun r index => alPush r index act) s.result
          else s.result),
        currentDigits := (finalize_pending s.currentDigits s.rangeStart s.indices N).1,
        rangeStart := (finalize_pending s.currentDigits s.rangeStart s.indices N).2.1,
        indices := (finalize_pending s.currentDigits s.rangeStart s.indices N).2.2,
        afterAction := true } := by
  rw [← hc]
  exact parseStep_action N targets s act

/-- Parsing `11oooyd` against any list of at least 11 entities: the five
action characters all apply to the single retained index 11, in order,
duplicates preserved. -/
theorem parse_11oooyd (N : Nat) (targets : List (Char × List Nat)) (h11 : 11 ≤ N)
    (hN : 10 * N + 9 < USIZE) :
    parse_commands "11oooyd" N targets
      = [(11, [.Open, .Open, .Open, .Yank, .Done])] := by
  have hsplit : split_digits ['1', '1'] N = [11] := by
    have hpv : prefixVal ['1', '1'] = 11 := rfl
    have := split_digits_single ['1', '1'] N (by simp) (by rw [hpv]; omega)
      (by rw [hpv]; omega) hN
    rwa [hpv] at this
  unfold parse_commands
  show ((['1', '1'] ++ ['o', 'o', 'o', 'y', 'd']).foldl (parseStep N targets)
    { result := [], currentDigits := [], rangeStart := none,
      indices := [], afterAction := false }).result = _
  rw [List.foldl_append]
  rw [runParse_digits N targets ['1', '1'] (by decide) _ rfl]
  rw [List.foldl_cons]
  rw [parseStep_action_char N targets _ .Open 'o' rfl]
  simp only [List.nil_append]
  rw [finalize_pending_cons_none N ['1', '1'] [] (by simp)]
  rw [hsplit]
  simp only [List.foldl_cons, List.foldl_nil]
  rw [push_index_in [] 11 N (by omega) h11]
  simp only [List.nil_append]
  rw [if_pos (by simp : ([11] : List Nat) ≠ [])]
  simp only [List.foldl_cons, List.foldl_nil]
  rfl

/-- Parsing `1,1o` against any nonempty list: the explicitly repeated
index 1 is kept twice in the working set, so `Open` is recorded twice. -/
theorem parse_1comma1o (N : Nat) (targets : List (Char × List Nat)) (h1 : 1 ≤ N)
    (hN : 10 * N + 9 < USIZE) :
    parse_commands "1,1o" N targets = [(1, [.Open, .Open])] := by
  have hsplit : split_digits ['1'] N = [1] := by
    have hpv : prefixVal ['1'] = 1 := rfl
    have := split_digits_single ['1'] N (by simp) (by rw [hpv]) (by rw [hpv]; omega) hN
    rwa [hpv] at this
  have e1 : List.foldl (parseStep N targets)
      { result := [], currentDigits := [], rangeStart := none,
        indices := [], afterAction := false } ['1']
      = { result := [], currentDigits := ['1'], rangeStart := none,
          indices := [], afterAction := false } := by
    rw [runParse_digits N targets ['1'] (by decide) _ rfl]
    rfl
  have e2 : parseStep N targets
      { result := [], currentDigits := ['1'], rangeStart := none,
        indices := [], afterAction := false } ','
      = { result := [], currentDigits := [], rangeStart := none,
          indices := [1], afterAction := false } := by
    rw [parseStep_sep N targets _ ',' (Or.inr rfl)]
    rw [finalize_pending_cons_none N ['1'] [] (by simp)]
    rw [hsplit]
    simp only [List.foldl_cons, List.foldl_nil]
    rw [push_index_in [] 1 N (by omega) h1]
    rfl
  have e3 : parseStep N targets
      { result := [], currentDigits := [], rangeStart := none,
        indices := [1], afterAction := false } '1'
      = { result := [], currentDigits := ['1'], rangeStart := none,
          indices := [1], afterAction := false } := by
    rw [parseStep_digit N targets _ '1' (by decide) rfl]
    rfl
  have e4 : parseStep N targets
      { result := [], currentDigits := ['1'], rangeStart := none,
        indices := [1], afterAction := false } 'o'
      = { result := [(1, [.Open, .Open])], currentDigits := [], rangeStart := none,
          indices := [1, 1], afterAction := true } := by
    rw [parseStep_action_char N targets _ .Open 'o' rfl]
    rw [finalize_pending_cons_none N ['1'] [1] (by simp)]
    rw [hsplit]
    simp only [List.foldl_cons, List.foldl_nil]
    rw [push_index_in [1] 1 N (by omega) h1]
    rfl
  unfold parse_commands
  show ((['1', ',', '1', 'o']).foldl (parseStep N targets)
    { result := [], currentDigits := [], rangeStart := none,
      indices := [], afterAction := false }).result = _
  show ((['o']).foldl (parseStep N targets) (parseStep N targets (parseStep N targets
    (List.foldl (parseStep N targets)
      { result := [], currentDigits := [], rangeStart := none,
        indices := [], afterAction := false } ['1']) ',') '1')).result = _
  rw [e1, e2, e3, List.foldl_cons, List.foldl_nil, e4]

/-! ## Alias union counts -/

theorem aliasUnion_count :
    ∀ (g xs : List Nat) (i : Nat),
      (aliasUnion xs g).count i =
        if i ∈ xs then xs.count i else (if i ∈ g then 1 else 0) := by
  intro g
  induction g with
  | nil =>
      intro xs i
      by_cases h : i ∈ xs
      · rw [if_pos h]; rfl
      · rw [if_neg h, if_neg (by simp), List.count_eq_zero]
        exact h
  | cons a g' ih =>
      intro xs i
      show (aliasUnion (if xs.contains a then xs else xs ++ [a]) g').count i = _
      by_cases ha : a ∈ xs
      · rw [if_pos (by simpa using ha), ih xs i]
        by_cases hix : i ∈ xs
        · rw [if_pos hix, if_pos hix]
        · rw [if_neg hix, if_neg hix]
          have hia : i ≠ a := fun h => hix (h ▸ ha)
          by_cases hig : i ∈ g'
          · rw [if_pos hig, if_pos (by simp [hig])]
          · rw [if_neg hig, if_neg (by simp [hia, hig])]
      · rw [if_neg (by simpa using ha), ih (xs ++ [a]) i]
        by_cases hia : i = a
        · subst hia
          rw [if_pos (by simp), if_neg ha, if_pos (by simp)]
          rw [List.count_append, List.count_singleton, List.count_eq_zero.mpr ha]
          simp
        · have hmem : i ∈ xs ++ [a] ↔ i ∈ xs := by simp [hia]
          have hcount : (xs ++ [a]).count i = xs.count i := by
            have hz : List.count i [a] = 0 := by
              rw [List.count_eq_zero]
              simp [hia]
            rw [List.count_append, hz, Nat.add_zero]
          by_cases hix : i ∈ xs
          · rw [if_pos (hmem.mpr hix), hcount, if_pos hix]
          · rw [if_neg (fun h => hix (hmem.mp h)), if_neg hix]
            by_cases hig : i ∈ g'
            · rw [if_pos hig, if_pos (by simp [hig])]
            · rw [if_neg hig, if_neg (by simp [hia, hig])]

/-! ## Claim C3: greedy digit splitting -/

/-- C3: for every entity count `N` and digit run, `longest_valid_prefix`
returns exactly the longest prefix that forms a valid index in `[1, N]`
(`none` when no prefix does), `split_digits` repeats it on the remainder,
and the concrete examples hold: with `N = 10` the run `23` yields indices
2 and 3, with `N = 30` it yields 23, and with `N = 50` the run `123456`
yields 12, 34, 5, 6. -/
theorem claim_C3_greedy_digit_split :
    (∀ (ds : List Char) (N : Nat), 10 * N + 9 < USIZE →
      (∀ v l, longest_valid_prefix ds N = some (v, l) →
        v = prefixVal (ds.take l) ∧ IsValidLen ds N l ∧
          ∀ l', IsValidLen ds N l' → l' ≤ l) ∧
      ( longest_valid_prefix ds N = none → ∀ l, ¬ IsValidLen ds N l)) ∧
    (∀ (ds : List Char) (N : Nat),
      split_digits ds N =
        match longest_valid_prefix ds N with
        | some (value, len) => value :: split_digits (ds.drop len) N
        | none => []) ∧
    split_digits ['2', '3'] 10 = [2, 3] ∧
    split_digits ['2', '3'] 30 = [23] ∧
    split_digits ['1', '2', '3', '4', '5', '6'] 50 = [12, 34, 5, 6] := by
  refine ⟨?_, split_digits_eq, by decide, by decide, by decide⟩
  intro ds N hN
  have hfin := lvp_correct ds N hN
  constructor
  · intro v l h
    rw [h] at hfin
    simp only [BestFinal] at hfin
    exact ⟨hfin.2.1, hfin.1, hfin.2.2⟩
  · intro h
    rw [h] at hfin
    exact hfin

theorem claim_C3_greedy_digit_split_witness :
    (10 * 10 + 9 < USIZE) ∧
    (2 = prefixVal (['2', '3'].take 1) ∧ IsValidLen ['2', '3'] 10 1 ∧
      ∀ l', IsValidLen ['2', '3'] 10 l' → l' ≤ 1) :=
  ⟨by decide,
    (claim_C3_greedy_digit_split.1 ['2', '3'] 10 (by decide)).1 2 1 (by decide)⟩

/-! ## Claim C4: range normalization -/

/-- C4: for all endpoints `a, b ∈ [1, N]`, parsing `a-b` followed by an
action yields exactly the index set `{min a b .. max a b}` (which already
equals its intersection with `[1, N]`), each index mapped to that action;
the declared order of the endpoints is irrelevant; and range endpoints use
the same greedy split, so with 10 entities `1-23r` yields indices 1, 2
(the range) and 3 (the trailing digit). -/
theorem claim_C4_range_normalization :
    (∀ (N : Nat) (targets : List (Char × List Nat)) (a b : Nat) (act : Action),
      1 ≤ a → a ≤ N → 1 ≤ b → b ≤ N → 10 * N + 9 < USIZE →
      parse_commands (String.mk (digitsOf a ++ ('-' :: (digitsOf b ++ [act.asChar])))) N targets
          = (List.range' (min a b) (max a b + 1 - min a b)).map (fun i => (i, [act])) ∧
      parse_commands (String.mk (digitsOf a ++ ('-' :: (digitsOf b ++ [act.asChar])))) N targets
          = parse_commands (String.mk (digitsOf b ++ ('-' :: (digitsOf a ++ [act.asChar])))) N
              targets ∧
      ∀ i, List.lookup i
          (parse_commands (String.mk (digitsOf a ++ ('-' :: (digitsOf b ++ [act.asChar])))) N
            targets)
          = if min a b ≤ i ∧ i ≤ max a b then some [act] else none) ∧
    parse_commands "1-23r" 10 [] = [(1, [.Read]), (2, [.Read]), (3, [.Read])] := by
  constructor
  · intro N targets a b act h1a h2a h1b h2b hN
    have hab := parse_range_input N targets a b act h1a h2a h1b h2b hN
    have hba := parse_range_input N targets b a act h1b h2b h1a h2a hN
    refine ⟨hab, ?_, ?_⟩
    · rw [hab, hba, min_comm b a, max_comm b a]
    · intro i
      rw [hab, lookup_map_const]
      by_cases hmem : min a b ≤ i ∧ i ≤ max a b
      · rw [if_pos ?_, if_pos hmem]
        rw [List.mem_range']
        exact ⟨i - min a b, by omega, by omega⟩
      · rw [if_neg ?_, if_neg hmem]
        intro hcontra
        rw [List.mem_range'] at hcontra
        obtain ⟨j, hj, rfl⟩ := hcontra
        exact hmem ⟨by omega, by omega⟩
  · decide

theorem claim_C4_range_normalization_witness :
    (1 ≤ 3 ∧ 3 ≤ 10 ∧ 1 ≤ 1 ∧ 1 ≤ 10 ∧ 10 * 10 + 9 < USIZE) ∧
    (parse_commands (String.mk (digitsOf 3 ++ ('-' :: (digitsOf 1 ++ [Action.asChar .Unsubscribe]))))
        10 []
      = (List.range' (min 3 1) (max 3 1 + 1 - min 3 1)).map (fun i => (i, [Action.Unsubscribe]))) :=
  ⟨by decide,
    (claim_C4_range_normalization.1 10 [] 3 1 .Unsubscribe (by decide) (by decide) (by decide)
      (by decide) (by decide)).1⟩

/-! ## Claim C5: repeated actions and the retained index set -/

/-- C5: for any `N ≥ 11`, parsing `11oooyd` yields at index 11 the
ordered, duplicate-preserving action list Open, Open, Open, Yank, Done
(consecutive action characters reuse the retained index set), and a digit
arriving after an action character discards the old index set and starts
a fresh one. -/
theorem claim_C5_repeated_actions :
    (∀ (N : Nat) (targets : List (Char × List Nat)), 11 ≤ N → 10 * N + 9 < USIZE →
      parse_commands "11oooyd" N targets
        = [(11, [.Open, .Open, .Open, .Yank, .Done])]) ∧
    (∀ (N : Nat) (targets : List (Char × List Nat)) (s : ParseState) (ch : Char),
      ch.isDigit = true → s.afterAction = true →
      parseStep N targets s ch
        = { result := s.result, currentDigits := [ch], rangeStart := none,
            indices := [], afterAction := false }) :=
  ⟨fun N targets h11 hN => parse_11oooyd N targets h11 hN,
    fun N targets s ch hd ha => parseStep_digit_after N targets s ch hd ha⟩

theorem claim_C5_repeated_actions_witness :
    (11 ≤ 11 ∧ 10 * 11 + 9 < USIZE) ∧
    parse_commands "11oooyd" 11 [] = [(11, [.Open, .Open, .Open, .Yank, .Done])] :=
  ⟨by decide, claim_C5_repeated_actions.1 11 [] (by decide) (by decide)⟩

/-! ## Claim C6: parse-error recovery -/

/-- C6: any character outside the recognized vocabulary (digit, `-`, `,`,
space, action, alias) resets the digit buffer, pending range start and
working index set to empty while keeping every committed index→action
pair, and parsing is a total function that never fails: the concrete
input `1oz2r` still yields Open at 1 and Read at 2, the malformed `z`
merely discarding the in-progress token. -/
theorem claim_C6_error_recovery :
    (∀ (N : Nat) (targets : List (Char × List Nat)) (s : ParseState) (ch : Char),
      ch.isDigit = false → ch ≠ '-' → ch ≠ ' ' → ch ≠ ',' →
      is_target_char ch = false → Action.fromChar ch = none →
      parseStep N targets s ch
        = { result := s.result, currentDigits := [], rangeStart := none,
            indices := [], afterAction := false }) ∧
    parse_commands "1oz2r" 10 [] = [(1, [.Open]), (2, [.Read])] :=
  ⟨fun N targets s ch hd hdash hsp hcm ht hact =>
    parseStep_other N targets s ch hd hdash hsp hcm ht hact, by decide⟩

theorem claim_C6_error_recovery_witness :
    (('z').isDigit = false ∧ 'z' ≠ '-' ∧ 'z' ≠ ' ' ∧ 'z' ≠ ',' ∧
      is_target_char 'z' = false ∧ Action.fromChar 'z' = none) ∧
    parseStep 10 []
        { result := [(1, [.Open])], currentDigits := ['4'], rangeStart := some 2,
          indices := [3], afterAction := false } 'z'
      = { result := [(1, [.Open])], currentDigits := [], rangeStart := none,
          indices := [], afterAction := false } :=
  ⟨by decide,
    claim_C6_error_recovery.1 10 []
      { result := [(1, [.Open])], currentDigits := ['4'], rangeStart := some 2,
        indices := [3], afterAction := false } 'z'
      (by decide) (by decide) (by decide) (by decide) (by decide) (by decide)⟩

/-! ## Claim C10: alias union versus explicit duplicate indices -/

/-- C10: alias expansion unions the alias's index set into the working set
with a membership check — an index already present is never added again,
and an index occurring several times in the group is added once — so an
alias followed by one action applies it at most once per index; explicit
repeated digit indices, by contrast, are kept as duplicates, so `1,1o`
yields Open twice at index 1. -/
theorem claim_C10_alias_dedup :
    (∀ (xs g : List Nat) (i : Nat),
      (aliasUnion xs g).count i =
        if i ∈ xs then xs.count i else (if i ∈ g then 1 else 0)) ∧
    (∀ (g : List Nat) (i : Nat), (aliasUnion [] g).count i ≤ 1) ∧
    (∀ (N : Nat) (targets : List (Char × List Nat)), 1 ≤ N → 10 * N + 9 < USIZE →
      parse_commands "1,1o" N targets = [(1, [.Open, .Open])]) := by
  refine ⟨fun xs g i => aliasUnion_count g xs i, ?_, fun N targets h1 hN =>
    parse_1comma1o N targets h1 hN⟩
  intro g i
  rw [aliasUnion_count g [] i, if_neg (by simp)]
  by_cases hig : i ∈ g
  · rw [if_pos hig]
  · rw [if_neg hig]
    omega

theorem claim_C10_alias_dedup_witness :
    (1 ≤ 1 ∧ 10 * 1 + 9 < USIZE) ∧
    parse_commands "1,1o" 1 [] = [(1, [.Open, .Open])] :=
  ⟨by decide, claim_C10_alias_dedup.2.2 1 [] (by decide) (by decide)⟩

/-! ## Claim C2: Suppress-dominant ledger merge -/

/-- The state `record_notification_override` stores for `id`, as a
function of the prior entry. -/
def mergedState (prior : Option NotificationOverride)
    (next : NotificationOverrideState) : NotificationOverrideState :=
  match prior with
  | some existing => mergeOverrideStates existing.state next
  | none => next

theorem record_notification_override_lookup :
    ∀ (ovs : List (String × NotificationOverride)) (id : String)
      (st : NotificationOverrideState) (now : Int),
      List.lookup id (record_notification_override ovs id st now)
        = some ⟨mergedState (List.lookup id ovs) st, now⟩ := by
  intro ovs
  induction ovs with
  | nil =>
      intro id st now
      simp [record_notification_override, mergedState]
  | cons p rest ih =>
      intro id st now
      obtain ⟨k, e⟩ := p
      by_cases hk : k = id
      · subst hk
        rw [record_notification_override, if_pos rfl, List.lookup_cons_self,
          List.lookup_cons_self]
        rfl
      · rw [record_notification_override, if_neg hk]
        have hbeq : (id == k) = false := beq_eq_false_iff_ne.mpr (Ne.symm hk)
        rw [List.lookup_cons, List.lookup_cons, hbeq]
        exact ih id st now

/-- C2: `Suppress` dominates `Read` in the override ledger: within one
optimistic update (`record_override_state`) and across successive
updates to an existing ledger entry (`record_notification_override`),
recording `Read` and `Suppress` in either order yields `Suppress`, never
`Read`; `Read` merged with `Read` yields `Read`. -/
theorem claim_C2_suppress_dominance :
    (∀ c : Option NotificationOverrideState,
      record_override_state c .Suppress = some .Suppress) ∧
    (∀ st : NotificationOverrideState,
      record_override_state (some .Suppress) st = some .Suppress) ∧
    (∀ c : Option NotificationOverrideState,
      record_override_state (record_override_state c .Read) .Suppress = some .Suppress ∧
      record_override_state (record_override_state c .Suppress) .Read = some .Suppress) ∧
    (record_override_state (some .Read) .Read = some .Read ∧
      record_override_state none .Read = some .Read) ∧
    (∀ (ovs : List (String × NotificationOverride)) (id : String) (now : Int),
      List.lookup id (record_notification_override ovs id .Suppress now)
        = some ⟨.Suppress, now⟩) ∧
    (∀ (ovs : List (String × NotificationOverride)) (id : String) (now t : Int),
      List.lookup id ovs = some ⟨.Suppress, t⟩ →
      List.lookup id (record_notification_override ovs id .Read now)
        = some ⟨.Suppress, now⟩) ∧
    (∀ (ovs : List (String × NotificationOverride)) (id : String) (now t : Int),
      List.lookup id ovs = some ⟨.Read, t⟩ →
      List.lookup id (record_notification_override ovs id .Read now)
        = some ⟨.Read, now⟩) ∧
    (∀ (ovs : List (String × NotificationOverride)) (id : String) (now : Int),
      List.lookup id ovs = none →
      List.lookup id (record_notification_override ovs id .Read now)
        = some ⟨.Read, now⟩) := by
  refine ⟨?_, ?_, ?_, ⟨rfl, rfl⟩, ?_, ?_, ?_, ?_⟩
  · rintro (_ | (_ | _)) <;> rfl
  · rintro (_ | _) <;> rfl
  · rintro (_ | (_ | _)) <;> exact ⟨rfl, rfl⟩
  · intro ovs id now
    rw [record_notification_override_lookup ovs id .Suppress now]
    rcases h : List.lookup id ovs with - | e
    · rfl
    · rcases e with ⟨(- | -), t⟩ <;> rfl
  · intro ovs id now t h
    rw [record_notification_override_lookup ovs id .Read now, h]
    rfl
  · intro ovs id now t h
    rw [record_notification_override_lookup ovs id .Read now, h]
    rfl
  · intro ovs id now h
    rw [record_notification_override_lookup ovs id .Read now, h]
    rfl

theorem claim_C2_suppress_dominance_witness :
    (List.lookup "thread-1" [("thread-1", (⟨.Suppress, 5⟩ : NotificationOverride))]
      = some ⟨.Suppress, 5⟩) ∧
    List.lookup "thread-1"
        (record_notification_override [("thread-1", ⟨.Suppress, 5⟩)] "thread-1" .Read 9)
      = some ⟨.Suppress, 9⟩ :=
  ⟨by decide,
    claim_C2_suppress_dominance.2.2.2.2.2.1 [("thread-1", ⟨.Suppress, 5⟩)] "thread-1" 9 5
      (by decide)⟩

/-! ## Claim C7: the action filter on personal pull requests -/

theorem lookup_some_mem {ν : Type} :
    ∀ (l : List (Nat × ν)) (k : Nat) (v : ν), List.lookup k l = some v → (k, v) ∈ l := by
  intro l
  induction l with
  | nil => intro k v h; cases h
  | cons p t ih =>
      intro k v h
      obtain ⟨k', v'⟩ := p
      rw [List.lookup_cons] at h
      by_cases hk : k = k'
      · subst hk
        rw [beq_self_eq_true] at h
        simp only [Option.some.injEq] at h
        subst h
        exact List.mem_cons_self _ _
      · rw [beq_eq_false_iff_ne.mpr hk] at h
        exact List.mem_cons_of_mem _ (ih k v h)

theorem alInsert_mem {κ ν : Type} [DecidableEq κ] (k : κ) (v : ν) :
    ∀ (m : List (κ × ν)) (p : κ × ν), p ∈ alInsert m k v → p ∈ m ∨ p = (k, v) := by
  intro m
  induction m with
  | nil =>
      intro p hp
      simp only [alInsert, List.mem_singleton] at hp
      exact Or.inr hp
  | cons q t ih =>
      intro p hp
      obtain ⟨k', v'⟩ := q
      rw [alInsert] at hp
      by_cases hk : k' = k
      · rw [if_pos hk] at hp
        rcases List.mem_cons.mp hp with h | h
        · exact Or.inr (by rw [h, hk])
        · exact Or.inl (List.mem_cons_of_mem _ h)
      · rw [if_neg hk] at hp
        rcases List.mem_cons.mp hp with h | h
        · exact Or.inl (by rw [h]; exact List.mem_cons_self _ _)
        · rcases ih p h with h' | h'
          · exact Or.inl (List.mem_cons_of_mem _ h')
          · exact Or.inr h'

/-- One step of the action filter only ever adds an entry with a nonempty
action list, at the scanned index, and — when that index lies beyond the
notification count — with only actions legal for a personal pull
request. -/
theorem filterStep_mem (notifications : List Notification) (myPrs : List MyPullRequest)
    (acc : List (Nat × List Action)) (q r : Nat × List Action)
    (h : r ∈ filterStep notifications myPrs acc q) :
    r ∈ acc ∨ (r.1 = q.1 ∧ r.2 ≠ [] ∧ (notifications.length < r.1 →
      ∀ a ∈ r.2, action_allowed a PendingEntry.MyPullRequest = true)) := by
  by_cases hidx : q.1 ≤ notifications.length
  · rcases hget : notifications.get? (q.1 - 1) with - | n
    · left
      have hstep : filterStep notifications myPrs acc q = acc := by
        unfold filterStep
        rw [if_pos hidx, hget]
        rfl
      rwa [hstep] at h
    · have hstep : filterStep notifications myPrs acc q =
          (if q.2.filter (fun action => action_allowed action
              (PendingEntry.Notification (kindIsPullRequest n.subject.kind))) ≠ [] then
            alInsert acc q.1 (q.2.filter (fun action => action_allowed action
              (PendingEntry.Notification (kindIsPullRequest n.subject.kind))))
          else acc) := by
        unfold filterStep
        rw [if_pos hidx, hget]
        rfl
      rw [hstep] at h
      by_cases hne : q.2.filter (fun action => action_allowed action
          (PendingEntry.Notification (kindIsPullRequest n.subject.kind))) ≠ []
      · rw [if_pos hne] at h
        rcases alInsert_mem q.1 _ acc r h with h' | h'
        · exact Or.inl h'
        · subst h'
          exact Or.inr ⟨rfl, hne, fun hgt => absurd hgt (by omega)⟩
      · rw [if_neg hne] at h
        exact Or.inl h
  · rcases hget : myPrs.get? (q.1 - (notifications.length + 1)) with - | pr
    · left
      have hstep : filterStep notifications myPrs acc q = acc := by
        unfold filterStep
        rw [if_neg hidx, hget]
        rfl
      rwa [hstep] at h
    · have hstep : filterStep notifications myPrs acc q =
          (if q.2.filter (fun action =>
              action_allowed action PendingEntry.MyPullRequest) ≠ [] then
            alInsert acc q.1 (q.2.filter (fun action =>
              action_allowed action PendingEntry.MyPullRequest))
          else acc) := by
        unfold filterStep
        rw [if_neg hidx, hget]
        rfl
      rw [hstep] at h
      by_cases hne : q.2.filter (fun action =>
          action_allowed action PendingEntry.MyPullRequest) ≠ []
      · rw [if_pos hne] at h
        rcases alInsert_mem q.1 _ acc r h with h' | h'
        · exact Or.inl h'
        · subst h'
          refine Or.inr ⟨rfl, hne, fun _ a ha => (List.mem_filter.mp ha).2⟩
      · rw [if_neg hne] at h
        exact Or.inl h

/-- Every entry the action filter keeps has a nonempty action list, and an
entry at a personal-pull-request index (beyond the notification count)
holds only actions `action_allowed` accepts for `MyPullRequest`. -/
theorem filter_pending_actions_sound (notifications : List Notification)
    (myPrs : List MyPullRequest) :
    ∀ (parsed acc : List (Nat × List Action)),
      (∀ p ∈ acc, p.2 ≠ [] ∧ (notifications.length < p.1 →
        ∀ a ∈ p.2, action_allowed a PendingEntry.MyPullRequest = true)) →
      ∀ p ∈ parsed.foldl (filterStep notifications myPrs) acc,
      p.2 ≠ [] ∧ (notifications.length < p.1 →
        ∀ a ∈ p.2, action_allowed a PendingEntry.MyPullRequest = true) := by
  intro parsed
  induction parsed with
  | nil => intro acc hacc p hp; exact hacc p hp
  | cons q t ih =>
      intro acc hacc p hp
      rw [List.foldl_cons] at hp
      refine ih _ ?_ p hp
      intro r hr
      rcases filterStep_mem notifications myPrs acc q r hr with h | h
      · exact hacc r h
      · exact ⟨h.2.1, fun hgt => h.2.2 hgt⟩

/-- C7: a personal pull request accepts only Open, Yank (copy), Unsubscribe
(ignore), Review and Branch — `Read` and `Done` are filtered out, and
indices whose action list becomes empty are dropped — and executing
`Unsubscribe` on a personal pull request makes exactly one external call:
appending the pull request's URL to the ignore set, never a network
notification-unsubscribe. -/
theorem claim_C7_personal_pr_actions :
    (∀ act : Action, action_allowed act PendingEntry.MyPullRequest = true ↔
      (act = .Open ∨ act = .Yank ∨ act = .Unsubscribe ∨ act = .Review ∨ act = .Branch)) ∧
    (action_allowed .Read PendingEntry.MyPullRequest = false ∧
      action_allowed .Done PendingEntry.MyPullRequest = false) ∧
    (∀ (notifications : List Notification) (myPrs : List MyPullRequest)
      (parsed : List (Nat × List Action)) (i : Nat) (acts : List Action),
      List.lookup i (filter_pending_actions parsed notifications myPrs) = some acts →
      acts ≠ [] ∧ (notifications.length < i →
        ∀ a ∈ acts, action_allowed a PendingEntry.MyPullRequest = true)) ∧
    (∀ (pr : MyPullRequest) (url : String),
      executeActionCalls .Unsubscribe (.MyPullRequest pr) url
        = [.appendIgnoredPr url]) ∧
    (∀ (pr : MyPullRequest) (url sid : String),
      ExecCall.netUnsubscribe sid ∉
        executeActionCalls .Unsubscribe (.MyPullRequest pr) url) := by
  refine ⟨?_, ⟨rfl, rfl⟩, ?_, fun pr url => rfl, ?_⟩
  · intro act
    cases act <;> simp [action_allowed]
  · intro notifications myPrs parsed i acts h
    have hmem := lookup_some_mem _ i acts h
    exact filter_pending_actions_sound notifications myPrs parsed []
      (by intro p hp; cases hp) (i, acts) hmem
  · intro pr url sid h
    simp [executeActionCalls] at h

/-- Example personal pull request used to instantiate claim C7. -/
def examplePr : MyPullRequest :=
  { id := "pr-1", updatedAt := 100,
    subject := { title := "Add feature", url := "https://github.com/acme/widgets/pull/7",
                 kind := "PullRequest", status := [], ciStatus := none,
                 reviewStatus := none, headRef := some "feature" },
    repository := { name := "widgets", fullName := "acme/widgets" },
    url := "https://github.com/acme/widgets/pull/7" }

theorem claim_C7_personal_pr_actions_witness :
    (List.lookup 1 (filter_pending_actions [(1, [.Open, .Read, .Done])] [] [examplePr])
      = some [.Open]) ∧
    ([.Open] ≠ ([] : List Action) ∧ (([] : List Notification).length < 1 →
      ∀ a ∈ [Action.Open], action_allowed a PendingEntry.MyPullRequest = true)) :=
  ⟨by decide,
    claim_C7_personal_pr_actions.2.2.1 [] [examplePr] [(1, [.Open, .Read, .Done])] 1 [.Open]
      (by decide)⟩

/-! ## Closed form of the refresh merge (claims C1 and C9) -/

/-- The declarative per-notification keep rule of the merge step, written
from the specification's words (§4.4b): no matching override passes the
notification through unchanged; an override older than the server's
`updated_at` is discarded and the notification kept as server-reported;
otherwise `Read` forces `unread := false` and drops the notification when
the view excludes read items, and `Suppress` drops it unconditionally. -/
def mergeSpecKeep (includeRead : Bool) (overrides : List (String × NotificationOverride))
    (n : Notification) : Option Notification :=
  match List.lookup n.id overrides with
  | none => some n
  | some ov =>
      if ov.markedAt < n.updatedAt then some n
      else
        match ov.state with
        | .Read => if includeRead then some { n with unread := false } else none
        | .Suppress => none

/-- The `clear_ids` contribution of one notification in
`apply_notification_overrides` (derived from the source branches): the
entry is cleared when the server reports newer activity, or — in a view
that includes read items — when a `Read` override meets a notification
the server itself already reports as read. -/
def mergeClear (includeRead : Bool) (overrides : List (String × NotificationOverride))
    (n : Notification) : Option String :=
  match List.lookup n.id overrides with
  | none => none
  | some ov =>
      if ov.markedAt < n.updatedAt then some n.id
      else
        match ov.state with
        | .Read =>
            if includeRead then (if n.unread then none else some n.id) else none
        | .Suppress => none

theorem set_unread_false_self (n : Notification) (h : n.unread = false) :
    { n with unread := false } = n := by
  cases n
  simp_all

theorem applyOverrideStep_closed (includeRead : Bool)
    (ovs : List (String × NotificationOverride)) :
    ∀ (ns : List Notification) (m : List Notification) (c : List String),
      ns.foldl (applyOverrideStep includeRead ovs) (m, c)
        = (m ++ ns.filterMap (mergeSpecKeep includeRead ovs),
           c ++ ns.filterMap (mergeClear includeRead ovs)) := by
  intro ns
  induction ns with
  | nil => intro m c; simp
  | cons n t ih =>
      intro m c
      rw [List.foldl_cons]
      rcases hl : List.lookup n.id ovs with - | ov
      · have hk : mergeSpecKeep includeRead ovs n = some n := by
          simp [mergeSpecKeep, hl]
        have hc : mergeClear includeRead ovs n = none := by
          simp [mergeClear, hl]
        have hstep : applyOverrideStep includeRead ovs (m, c) n = (m ++ [n], c) := by
          simp [applyOverrideStep, hl]
        rw [hstep, ih, List.filterMap_cons_some hk, List.filterMap_cons_none hc]
        simp
      · by_cases ht : ov.markedAt < n.updatedAt
        · have hk : mergeSpecKeep includeRead ovs n = some n := by
            simp [mergeSpecKeep, hl, ht]
          have hc : mergeClear includeRead ovs n = some n.id := by
            simp [mergeClear, hl, ht]
          have hstep : applyOverrideStep includeRead ovs (m, c) n
              = (m ++ [n], c ++ [n.id]) := by
            simp [applyOverrideStep, hl, ht]
          rw [hstep, ih, List.filterMap_cons_some hk, List.filterMap_cons_some hc]
          simp
        · rcases hst : ov.state with - | -
          · -- Read override
            by_cases hv : includeRead
            · subst hv
              by_cases hu : n.unread
              · have hk : mergeSpecKeep true ovs n = some { n with unread := false } := by
                  simp [mergeSpecKeep, hl, ht, hst]
                have hc : mergeClear true ovs n = none := by
                  simp [mergeClear, hl, ht, hst, hu]
                have hstep : applyOverrideStep true ovs (m, c) n
                    = (m ++ [{ n with unread := false }], c) := by
                  simp [applyOverrideStep, hl, ht, hst, hu]
                rw [hstep, ih, List.filterMap_cons_some hk, List.filterMap_cons_none hc]
                simp
              · rw [Bool.not_eq_true] at hu
                have hk : mergeSpecKeep true ovs n = some n := by
                  simp [mergeSpecKeep, hl, ht, hst, set_unread_false_self n hu]
                have hc : mergeClear true ovs n = some n.id := by
                  simp [mergeClear, hl, ht, hst, hu]
                have hstep : applyOverrideStep true ovs (m, c) n
                    = (m ++ [n], c ++ [n.id]) := by
                  simp [applyOverrideStep, hl, ht, hst, hu, set_unread_false_self n hu]
                rw [hstep, ih, List.filterMap_cons_some hk, List.filterMap_cons_some hc]
                simp
            · rw [Bool.not_eq_true] at hv
              subst hv
              have hk : mergeSpecKeep false ovs n = none := by
                simp [mergeSpecKeep, hl, ht, hst]
              have hc : mergeClear false ovs n = none := by
                simp [mergeClear, hl, ht, hst]
              have hstep : applyOverrideStep false ovs (m, c) n = (m, c) := by
                simp [applyOverrideStep, hl, ht, hst]
              rw [hstep, ih, List.filterMap_cons_none hk, List.filterMap_cons_none hc]
          · -- Suppress override
            have hk : mergeSpecKeep includeRead ovs n = none := by
              simp [mergeSpecKeep, hl, ht, hst]
            have hc : mergeClear includeRead ovs n = none := by
              simp [mergeClear, hl, ht, hst]
            have hstep : applyOverrideStep includeRead ovs (m, c) n = (m, c) := by
              simp [applyOverrideStep, hl, ht, hst]
            rw [hstep, ih, List.filterMap_cons_none hk, List.filterMap_cons_none hc]

/-- `apply_notification_overrides`, in closed form: the merged list is the
per-notification keep rule mapped over the refresh, and the ledger keeps
exactly the entries whose key no notification cleared. -/
theorem apply_notification_overrides_closed (includeRead : Bool)
    (ovs : List (String × NotificationOverride)) (ns : List Notification) :
    apply_notification_overrides includeRead ovs ns
      = (ns.filterMap (mergeSpecKeep includeRead ovs),
         ovs.filter (fun p => ¬ (ns.filterMap (mergeClear includeRead ovs)).contains p.1)) := by
  unfold apply_notification_overrides
  by_cases hovs : ovs = []
  · subst hovs
    rw [if_pos rfl]
    have : ∀ ms : List Notification,
        ms.filterMap (mergeSpecKeep includeRead []) = ms := by
      intro ms
      induction ms with
      | nil => rfl
      | cons x t ih => rw [List.filterMap_cons_some (by rfl), ih]
    rw [this ns]
    simp
  · rw [if_neg hovs, applyOverrideStep_closed includeRead ovs ns [] []]
    simp

theorem lookup_filter_cleared (ovs : List (String × NotificationOverride))
    (cl : List String) (k : String) (h : cl.contains k = true) :
    List.lookup k (ovs.filter (fun p => ¬ cl.contains p.1)) = none := by
  rw [List.lookup_eq_none_iff]
  intro p hp
  obtain ⟨hmem, hpred⟩ := List.mem_filter.mp hp
  simp only [decide_eq_true_eq] at hpred
  rw [bne_iff_ne]
  intro heq
  rw [← heq] at hpred
  exact hpred h

theorem mergedState_suppress (prior : Option NotificationOverride) :
    mergedState prior .Suppress = .Suppress := by
  rcases prior with - | e
  · rfl
  · rcases e with ⟨(- | -), t⟩ <;> rfl

/-! ## Claim C1: the refresh merge against the override ledger -/

/-- C1: merging a fresh notification list against the ledger applies the
declarative per-notification rule (`mergeSpecKeep`): an override older
than the server's `updated_at` is discarded — the notification is kept as
server-reported and its ledger entry deleted — otherwise `Read` forces
`unread := false` (dropping the notification when the view excludes read
items) and `Suppress` drops it unconditionally.  In particular, after
Mark-done records a `Suppress` override at time `now`, a refresh with
`updated_at ≤ now` keeps the notification suppressed, while a strictly
newer `updated_at` un-suppresses it. -/
theorem claim_C1_merge_rule :
    (∀ (includeRead : Bool) (ovs : List (String × NotificationOverride))
      (ns : List Notification),
      (apply_notification_overrides includeRead ovs ns).1
        = ns.filterMap (mergeSpecKeep includeRead ovs)) ∧
    (∀ (includeRead : Bool) (ovs : List (String × NotificationOverride))
      (n : Notification) (ov : NotificationOverride),
      List.lookup n.id ovs = some ov →
      (ov.markedAt < n.updatedAt →
        mergeSpecKeep includeRead ovs n = some n ∧
        ∀ ns, n ∈ ns →
          List.lookup n.id (apply_notification_overrides includeRead ovs ns).2 = none) ∧
      (¬ ov.markedAt < n.updatedAt →
        (ov.state = .Read →
          mergeSpecKeep includeRead ovs n
            = if includeRead then some { n with unread := false } else none) ∧
        (ov.state = .Suppress → mergeSpecKeep includeRead ovs n = none))) ∧
    (∀ (includeRead : Bool) (ovs : List (String × NotificationOverride))
      (id : String) (now : Int) (n : Notification), n.id = id →
      (n.updatedAt ≤ now →
        mergeSpecKeep includeRead
          (record_notification_override ovs id .Suppress now) n = none) ∧
      (now < n.updatedAt →
        mergeSpecKeep includeRead
          (record_notification_override ovs id .Suppress now) n = some n)) := by
  refine ⟨?_, ?_, ?_⟩
  · intro includeRead ovs ns
    rw [apply_notification_overrides_closed]
  · intro includeRead ovs n ov hl
    constructor
    · intro ht
      refine ⟨by simp [mergeSpecKeep, hl, ht], ?_⟩
      intro ns hns
      rw [apply_notification_overrides_closed]
      refine lookup_filter_cleared ovs _ n.id ?_
      have : n.id ∈ ns.filterMap (mergeClear includeRead ovs) :=
        List.mem_filterMap.mpr ⟨n, hns, by simp [mergeClear, hl, ht]⟩
      exact List.elem_eq_true_of_mem this
    · intro ht
      constructor
      · intro hst
        by_cases hv : includeRead
        · subst hv
          simp [mergeSpecKeep, hl, ht, hst]
        · rw [Bool.not_eq_true] at hv
          subst hv
          simp [mergeSpecKeep, hl, ht, hst]
      · intro hst
        simp [mergeSpecKeep, hl, ht, hst]
  · intro includeRead ovs id now n hid
    have hl : List.lookup n.id (record_notification_override ovs id .Suppress now)
        = some ⟨.Suppress, now⟩ := by
      rw [hid, record_notification_override_lookup, mergedState_suppress]
    constructor
    · intro ht
      simp [mergeSpecKeep, hl]
      omega
    · intro ht
      simp [mergeSpecKeep, hl, ht]

/-- Example notification used to instantiate claims C1 and C9. -/
def exampleNotification (unread : Bool) (updatedAt : Int) : Notification :=
  { id := "thread-1", nodeId := "node-1", subjectId := some "subject-1",
    unread := unread, reason := "mention", updatedAt := updatedAt,
    subject := { title := "Fix bug", url := "https://github.com/acme/widgets/pull/42",
                 kind := "PullRequest", status := [], ciStatus := none,
                 reviewStatus := none, headRef := none },
    repository := { name := "widgets", fullName := "acme/widgets" },
    url := "https://github.com/acme/widgets/pull/42" }

theorem claim_C1_merge_rule_witness :
    ((exampleNotification true 50).id = "thread-1") ∧
    ((exampleNotification true 50).updatedAt ≤ 100 →
      mergeSpecKeep false
        (record_notification_override [] "thread-1" .Suppress 100)
        (exampleNotification true 50) = none) ∧
    (100 < (exampleNotification true 50).updatedAt →
      mergeSpecKeep false
        (record_notification_override [] "thread-1" .Suppress 100)
        (exampleNotification true 50) = some (exampleNotification true 50)) :=
  ⟨by decide,
    (claim_C1_merge_rule.2.2 false [] "thread-1" 100 (exampleNotification true 50)
      (by decide)).1,
    (claim_C1_merge_rule.2.2 false [] "thread-1" 100 (exampleNotification true 50)
      (by decide)).2⟩

/-! ## Claim C9: when a Read override is deleted from the ledger -/

/-- C9 counterexample: in the unread-only view (`include_read = false`), a
`Read` override whose `recorded_at` is not older than the notification's
`updated_at` is retained in the ledger even though the server already
reports the notification as read — contradicting the claim that such an
entry is always deleted once the server agrees it is read. -/
theorem claim_C9_counterexample :
    List.lookup "thread-1"
        (apply_notification_overrides false
          [("thread-1", ⟨.Read, 100⟩)] [exampleNotification false 50]).2
      ≠ none := by
  decide

/-- C9 (amended): a `Read` override that is not stale (`recorded_at` not
older than `updated_at`) is deleted from the ledger exactly when the view
includes read items and the server itself reports the notification read;
in the unread-only view, or while the server still reports it unread, the
entry is retained. -/
theorem claim_C9_read_clear :
    (∀ (includeRead : Bool) (ovs : List (String × NotificationOverride))
      (n : Notification) (t : Int),
      List.lookup n.id ovs = some ⟨.Read, t⟩ → ¬ t < n.updatedAt →
      (mergeClear includeRead ovs n = some n.id ↔
        (includeRead = true ∧ n.unread = false))) ∧
    (∀ (ovs : List (String × NotificationOverride)) (n : Notification) (t : Int)
      (ns : List Notification),
      List.lookup n.id ovs = some ⟨.Read, t⟩ → ¬ t < n.updatedAt →
      n ∈ ns → n.unread = false →
      List.lookup n.id (apply_notification_overrides true ovs ns).2 = none) ∧
    (∀ (includeRead : Bool) (ovs : List (String × NotificationOverride))
      (n : Notification) (t : Int),
      List.lookup n.id ovs = some ⟨.Read, t⟩ → ¬ t < n.updatedAt →
      (includeRead = false ∨ n.unread = true) →
      List.lookup n.id (apply_notification_overrides includeRead ovs [n]).2
        = some ⟨.Read, t⟩) := by
  refine ⟨?_, ?_, ?_⟩
  · intro includeRead ovs n t hl ht
    constructor
    · intro h
      by_cases hv : includeRead
      · subst hv
        by_cases hu : n.unread
        · simp [mergeClear, hl, ht, hu] at h
        · rw [Bool.not_eq_true] at hu
          exact ⟨rfl, hu⟩
      · rw [Bool.not_eq_true] at hv
        subst hv
        simp [mergeClear, hl, ht] at h
    · rintro ⟨hv, hu⟩
      subst hv
      simp [mergeClear, hl, ht, hu]
  · intro ovs n t ns hl ht hns hu
    rw [apply_notification_overrides_closed]
    refine lookup_filter_cleared ovs _ n.id ?_
    have : n.id ∈ ns.filterMap (mergeClear true ovs) :=
      List.mem_filterMap.mpr ⟨n, hns, by simp [mergeClear, hl, ht, hu]⟩
    exact List.elem_eq_true_of_mem this
  · intro includeRead ovs n t hl ht hcase
    rw [apply_notification_overrides_closed]
    have hclear : mergeClear includeRead ovs n = none := by
      rcases hcase with hv | hu
      · subst hv
        simp [mergeClear, hl, ht]
      · by_cases hv : includeRead
        · subst hv
          simp [mergeClear, hl, ht, hu]
        · rw [Bool.not_eq_true] at hv
          subst hv
          simp [mergeClear, hl, ht]
    rw [List.filterMap_cons_none hclear]
    show List.lookup n.id (ovs.filter
      (fun p => ¬ (List.filterMap (mergeClear includeRead ovs) []).contains p.1)) = _
    have hall : ovs.filter
        (fun p => ¬ (List.filterMap (mergeClear includeRead ovs) []).contains p.1) = ovs := by
      apply List.filter_eq_self.mpr
      intro p _
      simp
    rw [hall, hl]

theorem claim_C9_read_clear_witness :
    (List.lookup (exampleNotification false 50).id
        [("thread-1", (⟨.Read, 100⟩ : NotificationOverride))] = some ⟨.Read, 100⟩ ∧
      ¬ (100 : Int) < (exampleNotification false 50).updatedAt ∧
      (exampleNotification false 50) ∈ [exampleNotification false 50] ∧
      (exampleNotification false 50).unread = false) ∧
    List.lookup (exampleNotification false 50).id
        (apply_notification_overrides true [("thread-1", ⟨.Read, 100⟩)]
          [exampleNotification false 50]).2 = none :=
  ⟨⟨by decide, by decide, by decide, by decide⟩,
    claim_C9_read_clear.2.1 [("thread-1", ⟨.Read, 100⟩)] (exampleNotification false 50) 100
      [exampleNotification false 50] (by decide) (by decide) (by decide) (by decide)⟩

/-! ## Claim C8: end-to-end unread targeting and optimistic apply -/

/-- One of the five notifications of the claim C8 scenario. -/
def c8n (id : String) (unread : Bool) (ts : Int) : Notification :=
  { id := id, nodeId := id ++ "-node", subjectId := some (id ++ "-subject"),
    unread := unread, reason := "mention", updatedAt := ts,
    subject := { title := "T", url := "https://github.com/o/r/pull/1",
                 kind := "PullRequest", status := [], ciStatus := none,
                 reviewStatus := none, headRef := none },
    repository := { name := "r", fullName := "o/r" },
    url := "https://github.com/o/r/pull/1" }

/-- Five notifications, of which exactly the first, third and fourth are
unread. -/
def c8notifications : List Notification :=
  [c8n "t1" true 50, c8n "t2" false 40, c8n "t3" true 30, c8n "t4" true 20,
   c8n "t5" false 10]

/-- The unread-only application state of the claim C8 scenario. -/
def c8app : AppState :=
  { notifications := c8notifications, myPrs := [], includeRead := false,
    ignoredPrs := [], notificationOverrides := [] }

/-- C8: with 5 notifications of which exactly indices 1, 3 and 4 are
unread, the input `u d` parses to the pending map sending exactly those
three indices to `[Done]`; applying it optimistically records a
`Suppress` override for each targeted notification and removes them as
one batch, leaving the 2 read notifications in their original relative
order. -/
theorem claim_C8_end_to_end :
    c8notifications.map (fun n => n.unread) = [true, false, true, true, false] ∧
    build_pending_map "u d" c8notifications []
      = [(1, [.Done]), (3, [.Done]), (4, [.Done])] ∧
    (apply_optimistic_update c8app (build_pending_map "u d" c8notifications []) 1000
        ).notifications
      = [c8n "t2" false 40, c8n "t5" false 10] ∧
    (apply_optimistic_update c8app (build_pending_map "u d" c8notifications []) 1000
        ).notifications.length = 2 ∧
    List.lookup "t1" (apply_optimistic_update c8app
        (build_pending_map "u d" c8notifications []) 1000).notificationOverrides
      = some ⟨.Suppress, 1000⟩ ∧
    List.lookup "t3" (apply_optimistic_update c8app
        (build_pending_map "u d" c8notifications []) 1000).notificationOverrides
      = some ⟨.Suppress, 1000⟩ ∧
    List.lookup "t4" (apply_optimistic_update c8app
        (build_pending_map "u d" c8notifications []) 1000).notificationOverrides
      = some ⟨.Suppress, 1000⟩ := by
  refine ⟨by decide, by decide, by decide, by decide, by decide, by decide, by decide⟩

end Ghn
